import Mathlib

/-!
# Proof-of-work miner (`bitcoin_minner.cpp`): embedding and verification

The file embeds `computeSHA256`, `mineWorker`, and from `main` the launch of
the threads and the final report.

* Strings (`std::string`) are lists of characters.
* `int` and `long` values are integers. The only arithmetic of the program is
  `nonce += step` on a `long` (line 57); signed overflow is undefined in C++,
  so the embedding describes the executions in which `nonce` stays in the
  range of `long`, with the addition of `ℤ` (`nonceAt_in_long_range`: no
  addition overflows up to iteration k when `start + k * step ≤ LONG_MAX`).
* The OpenSSL primitive `SHA256` is a parameter `sha : Str → Digest`: any
  function from the input bytes to 32 bytes.
* Threads are embedded as a step function per worker (`mineWorkerStep`), one
  step per access to the shared variables, and a scheduler that runs any
  sequence of worker indices (`run`). All atomics of the source use the default
  sequentially consistent order and the only plain shared writes are made
  under `resultMutex`, so interleaving is the semantics of the program.
* An exception that leaves `mineWorker` leaves the thread function of a
  `std::thread`: `std::terminate` ends the process. The state of a run records
  this (`Sys.aborted`), and in an aborted process no thread moves.
* Fields marked "ghost" record history (hashes computed, writes made, results
  of `exchange`); no step reads them.
-/

namespace Miner

/-- A `std::string`. -/
abbrev Str := List Char

/-- The array `unsigned char hash[SHA256_DIGEST_LENGTH]`: 32 bytes
(`SHA256_DIGEST_LENGTH` is 32 in OpenSSL). -/
abbrev Digest := Fin 32 → Fin 256

/-- Output of `ss << std::hex << std::setw(2) << std::setfill('0') << v` for a
non-negative `int` v: the base-16 digits (lower case), right-adjusted in a
field of width 2 filled with `'0'`. -/
def hexByte (v : Nat) : Str :=
  let digits := Nat.toDigits 16 v
  List.replicate (2 - digits.length) '0' ++ digits

/-- The loop of `computeSHA256` over `i = 0 .. SHA256_DIGEST_LENGTH - 1`,
appending to the stream `ss`. -/
def renderDigest (hash : Digest) : Str :=
  (List.finRange 32).foldl (fun ss i => ss ++ hexByte (hash i).val) []

/-- The function `computeSHA256(data)`: digest of the data, rendered in hexadecimal. -/
def computeSHA256 (sha : Str → Digest) (data : Str) : Str :=
  renderDigest (sha data)

/-- Output of `ss << n` for an `int` or `long` in the default (decimal)
base: a minus sign for negative values, then the digits. -/
def decimal : Int → Str
  | Int.ofNat n => Nat.toDigits 10 n
  | Int.negSucc n => '-' :: Nat.toDigits 10 (n + 1)

/-- The call `s.substr(pos, n)` for `pos ≤ s.size()`. -/
def substr (s : Str) (pos n : Nat) : Str :=
  (s.drop pos).take n

/-- The j-th hexadecimal digit (nibble) of a digest, high nibble of byte 0
first; `none` from position 64 on. -/
def nibble (hash : Digest) (j : Nat) : Option Nat :=
  if h : j / 2 < 32 then
    some (if j % 2 = 0 then (hash ⟨j / 2, h⟩).val / 16 else (hash ⟨j / 2, h⟩).val % 16)
  else none

/-- A digest used to evaluate the definitions on concrete inputs: byte i is
the sum of the character codes of the data, times 7, plus i, modulo 256. -/
def toySha (data : Str) : Digest :=
  fun i => ⟨((data.foldl (fun a c => a + c.toNat) 0) * 7 + i.val) % 256, Nat.mod_lt _ (by decide)⟩

/-- The arguments that `main` hands unchanged to every `mineWorker`. -/
structure Block where
  blockNumber : Int
  transactions : Str
  previousHash : Str
  difficulty : Int

/-- The candidate string of lines 40-42:
`ss << blockNumber << transactions << previousHash << nonce`. -/
def blockData (b : Block) (nonce : Int) : Str :=
  decimal b.blockNumber ++ b.transactions ++ b.previousHash ++ decimal nonce

/-- Program points of `mineWorker`, one per access to the shared variables. -/
inductive PC where
  /-- lines 36-37: build `targetPrefix`, `nonce = start` -/
  | entry
  /-- line 38: `while (!solutionFound.load())` -/
  | loopCheck
  /-- lines 40-48 and 57: build the data, hash it, compare with the target -/
  | hashing
  /-- line 50: `solutionFound.exchange(true)` -/
  | exchange
  /-- line 51: the `lock_guard` takes `resultMutex` -/
  | lock
  /-- line 52: `globalHash = hashStr` -/
  | writeHash
  /-- line 53: `globalNonce = nonce` -/
  | writeNonce
  /-- line 54: the `lock_guard` goes out of scope -/
  | unlock
  /-- the function has returned (`break` of line 55, or the loop condition failed) -/
  | done
  /-- an exception left the function (the thread function of a `std::thread`:
  `std::terminate` is called and the process is gone, see `Sys.aborted`) -/
  | threw
  deriving DecidableEq

/-- The program points between winning the exchange and releasing the mutex. -/
def PC.critical : PC → Bool
  | PC.lock => true
  | PC.writeHash => true
  | PC.writeNonce => true
  | PC.unlock => true
  | _ => false

/-- The parameters and local variables of one call of `mineWorker`. -/
structure Worker where
  start : Int
  step : Int
  pc : PC
  targetPrefix : Str
  nonce : Int
  hashStr : Str
  /-- ghost: the nonces this worker has hashed, oldest first -/
  tried : List Int
  deriving DecidableEq

/-- The globals of lines 13-16. -/
structure Shared where
  solutionFound : Bool
  globalHash : Str
  globalNonce : Int
  /-- the mutex `resultMutex`: true while it is held -/
  resultMutex : Bool
  /-- ghost: the workers whose `exchange` returned false, oldest first -/
  winners : List Nat
  /-- ghost: the workers that assigned `globalHash`, oldest first -/
  hashWrites : List Nat
  /-- ghost: the workers that assigned `globalNonce`, oldest first -/
  nonceWrites : List Nat
  deriving DecidableEq

/-- One step of worker `id`. At `entry` a negative `difficulty` converts to a
`size_type` above `max_size()`, so the constructor of `targetPrefix` throws
`std::length_error`; `substr(0, difficulty)` is therefore only reached with
`difficulty ≥ 0`. The exception is not caught anywhere, so it ends the
process (`sysStep`). A worker waiting for a held mutex does not move. -/
def mineWorkerStep (sha : Str → Digest) (b : Block) (id : Nat) (sh : Shared) (w : Worker) :
    Shared × Worker :=
  match w.pc with
  | PC.entry =>
    if b.difficulty < 0 then (sh, { w with pc := PC.threw })
    else (sh, { w with targetPrefix := List.replicate b.difficulty.toNat '0',
                       nonce := w.start, pc := PC.loopCheck })
  | PC.loopCheck =>
    if sh.solutionFound then (sh, { w with pc := PC.done })
    else (sh, { w with pc := PC.hashing })
  | PC.hashing =>
    let data := blockData b w.nonce
    let hashStr := computeSHA256 sha data
    if substr hashStr 0 b.difficulty.toNat = w.targetPrefix then
      (sh, { w with hashStr := hashStr, tried := w.tried ++ [w.nonce], pc := PC.exchange })
    else
      (sh, { w with hashStr := hashStr, tried := w.tried ++ [w.nonce],
                    nonce := w.nonce + w.step, pc := PC.loopCheck })
  | PC.exchange =>
    if sh.solutionFound then ({ sh with solutionFound := true }, { w with pc := PC.done })
    else ({ sh with solutionFound := true, winners := sh.winners ++ [id] },
          { w with pc := PC.lock })
  | PC.lock =>
    if sh.resultMutex then (sh, w)
    else ({ sh with resultMutex := true }, { w with pc := PC.writeHash })
  | PC.writeHash =>
    ({ sh with globalHash := w.hashStr, hashWrites := sh.hashWrites ++ [id] },
     { w with pc := PC.writeNonce })
  | PC.writeNonce =>
    ({ sh with globalNonce := w.nonce, nonceWrites := sh.nonceWrites ++ [id] },
     { w with pc := PC.unlock })
  | PC.unlock => ({ sh with resultMutex := false }, { w with pc := PC.done })
  | PC.done => (sh, w)
  | PC.threw => (sh, w)

/-- The globals and the threads of one run. -/
structure Sys where
  shared : Shared
  workers : List Worker
  /-- an exception has left a thread function: `std::terminate` has ended the
  process, no thread runs any more and `main` never gets to its report -/
  aborted : Bool
  deriving DecidableEq

/-- A thread created with `mineWorker, start, step, ...` that has not run yet. -/
def Worker.init (start step : Int) : Worker :=
  { start := start, step := step, pc := PC.entry, targetPrefix := [], nonce := 0,
    hashStr := [], tried := [] }

/-- The initial values of lines 13-16. -/
def Shared.init : Shared :=
  { solutionFound := false, globalHash := [], globalNonce := 0, resultMutex := false,
    winners := [], hashWrites := [], nonceWrites := [] }

/-- A run with one worker per (start, step) pair. -/
def initSys (params : List (Int × Int)) : Sys :=
  { shared := Shared.init, workers := params.map (fun p => Worker.init p.1 p.2),
    aborted := false }

/-- Lines 72-73: the number of threads. -/
def resolveThreads (hardwareConcurrency : Nat) : Nat :=
  if hardwareConcurrency = 0 then 4 else hardwareConcurrency

/-- Lines 80-82: thread i is created with `start = i` and `step = numThreads`. -/
def mainLaunch (numThreads : Nat) : Sys :=
  initSys ((List.range numThreads).map (fun (i : Nat) => ((i : Int), (numThreads : Int))))

/-- The scheduler lets worker `i` take one step (nothing happens when there is
no such worker). When the step throws, the process is aborted; in an aborted
process nothing moves. -/
def sysStep (sha : Str → Digest) (b : Block) (i : Nat) (s : Sys) : Sys :=
  if s.aborted then s
  else
    match s.workers[i]? with
    | none => s
    | some w =>
      let r := mineWorkerStep sha b i s.shared w
      { shared := r.1, workers := s.workers.set i r.2,
        aborted := decide (r.2.pc = PC.threw) }

/-- The run under a schedule: the list of the workers that step, in order. -/
def run (sha : Str → Digest) (b : Block) (sched : List Nat) (s : Sys) : Sys :=
  sched.foldl (fun s i => sysStep sha b i s) s

/-- Every thread has returned: the joins of lines 85-88 are over. -/
def allDone (s : Sys) : Prop :=
  ∀ w ∈ s.workers, w.pc = PC.done

instance (s : Sys) : Decidable (allDone s) := by
  unfold allDone; infer_instance

/-- Lines 94-101: after the joins (in a state with `allDone` that is not
aborted) `main` prints the hash and the nonce when `solutionFound` is set, and
"No valid nonce found." otherwise. -/
def mainReport (s : Sys) : Option (Str × Int) :=
  if s.shared.solutionFound then some (s.shared.globalHash, s.shared.globalNonce) else none

/-- The value of `nonce` after k executions of `nonce += step` (line 57),
starting from `nonce = start` (line 37). -/
def nonceAt (start step : Int) : Nat → Int
  | 0 => start
  | k + 1 => nonceAt start step k + step

/-- The test of line 48 for the candidate with this nonce, with
`targetPrefix` as line 36 builds it. -/
def hit (sha : Str → Digest) (b : Block) (nonce : Int) : Prop :=
  substr (computeSHA256 sha (blockData b nonce)) 0 b.difficulty.toNat
    = List.replicate b.difficulty.toNat '0'

instance (sha : Str → Digest) (b : Block) (nonce : Int) : Decidable (hit sha b nonce) := by
  unfold hit; infer_instance

/-- The constant `LONG_MAX` of a 64-bit `long`. -/
def LONG_MAX : Int := 2 ^ 63 - 1

/-- An upper bound on the steps a worker still takes at difficulty 0, where
the test of line 48 succeeds at the first candidate. -/
def PC.stepsLeft : PC → Nat
  | PC.entry => 8
  | PC.loopCheck => 7
  | PC.hashing => 6
  | PC.exchange => 5
  | PC.lock => 4
  | PC.writeHash => 3
  | PC.writeNonce => 2
  | PC.unlock => 1
  | PC.done => 0
  | PC.threw => 0

/-- A small block on which `toySha` gives the candidate with nonce 2 a hash
that starts with "00", and the candidates with nonce 0 and 1 hashes that do
not start with '0'. -/
def toyBlock (difficulty : Int) : Block :=
  { blockNumber := 1, transactions := "m".toList, previousHash := "0".toList,
    difficulty := difficulty }

/-- A shared state after worker 1 has won and stored its result. -/
def wonShared : Shared :=
  { solutionFound := true, globalHash := computeSHA256 toySha (blockData (toyBlock 0) 1),
    globalNonce := 1, resultMutex := false, winners := [1], hashWrites := [1],
    nonceWrites := [1] }

/-- Worker 0 of two, about to make its exchange with a match of its own. -/
def lateWorker : Worker :=
  { start := 0, step := 2, pc := PC.exchange, targetPrefix := [], nonce := 0,
    hashStr := computeSHA256 toySha (blockData (toyBlock 0) 0), tried := [0] }

/-- What holds of a worker at the head of its loop or about to hash: it got
past line 36, its nonce is the next one of its stride, and every candidate it
has hashed failed the test of line 48. -/
def Searching (sha : Str → Digest) (b : Block) (w : Worker) : Prop :=
  0 ≤ b.difficulty ∧ w.targetPrefix = List.replicate b.difficulty.toNat '0' ∧
  w.nonce = nonceAt w.start w.step w.tried.length ∧
  ∀ k < w.tried.length, ¬ hit sha b (nonceAt w.start w.step k)

/-- What holds of a worker after the test of line 48 succeeded: `hashStr` is
the hash of the candidate with its current nonce, that hash passes the test,
and the candidates hashed before it all failed. -/
def Matched (sha : Str → Digest) (b : Block) (w : Worker) : Prop :=
  0 ≤ b.difficulty ∧
  ∃ k, w.tried.length = k + 1 ∧ w.nonce = nonceAt w.start w.step k ∧
    w.hashStr = computeSHA256 sha (blockData b w.nonce) ∧ hit sha b w.nonce ∧
    ∀ j < k, ¬ hit sha b (nonceAt w.start w.step j)

/-- The invariant of one worker that mentions no shared variable. -/
def LocalInv (sha : Str → Digest) (b : Block) (w : Worker) : Prop :=
  w.tried = (List.range w.tried.length).map (nonceAt w.start w.step) ∧
  match w.pc with
  | PC.entry => w.tried = []
  | PC.threw => w.tried = [] ∧ b.difficulty < 0
  | PC.loopCheck => Searching sha b w
  | PC.hashing => Searching sha b w
  | PC.done => True
  | _ => Matched sha b w

/-- The invariant that ties the shared variables to the worker whose exchange
returned false. -/
def WinnerInv (sha : Str → Digest) (b : Block) (sh : Shared) (i : Nat) (w : Worker) : Prop :=
  Matched sha b w ∧
  match w.pc with
  | PC.lock => sh.resultMutex = false ∧ sh.globalHash = [] ∧ sh.globalNonce = 0 ∧
      sh.hashWrites = [] ∧ sh.nonceWrites = []
  | PC.writeHash => sh.resultMutex = true ∧ sh.globalHash = [] ∧ sh.globalNonce = 0 ∧
      sh.hashWrites = [] ∧ sh.nonceWrites = []
  | PC.writeNonce => sh.resultMutex = true ∧ sh.globalHash = w.hashStr ∧ sh.globalNonce = 0 ∧
      sh.hashWrites = [i] ∧ sh.nonceWrites = []
  | PC.unlock => sh.resultMutex = true ∧ sh.globalHash = w.hashStr ∧
      sh.globalNonce = w.nonce ∧ sh.hashWrites = [i] ∧ sh.nonceWrites = [i]
  | PC.done => sh.resultMutex = false ∧ sh.globalHash = w.hashStr ∧
      sh.globalNonce = w.nonce ∧ sh.hashWrites = [i] ∧ sh.nonceWrites = [i]
  | _ => False

/-- The invariant of a worker that is not the winner: it is outside the
guarded write, and it has returned only if the flag is set. -/
def LoserInv (sh : Shared) (w : Worker) : Prop :=
  w.pc.critical = false ∧ (w.pc = PC.done → sh.solutionFound = true)

/-- Where a worker is after c turns of the scheduler, as long as no exchange
has been made: at its entry before the first turn, then alternately at the
loop head (or, after a match, at the exchange) and at the hashing step, with
one candidate hashed every two turns. -/
def TurnInv (c : Nat) (w : Worker) : Prop :=
  (c = 0 ∧ w.pc = PC.entry ∧ w.tried.length = 0) ∨
  (c % 2 = 1 ∧ (w.pc = PC.loopCheck ∨ w.pc = PC.exchange) ∧ w.tried.length = (c - 1) / 2) ∨
  (2 ≤ c ∧ c % 2 = 0 ∧ w.pc = PC.hashing ∧ w.tried.length = (c - 1) / 2)

/-- The invariant of the whole system. -/
structure Inv (sha : Str → Digest) (b : Block) (s : Sys) : Prop where
  atMostOne : s.shared.winners = [] ∨ ∃ i, s.shared.winners = [i]
  flagIff : s.shared.solutionFound = true ↔ s.shared.winners ≠ []
  pristine : s.shared.winners = [] →
    s.shared.globalHash = [] ∧ s.shared.globalNonce = 0 ∧ s.shared.resultMutex = false ∧
    s.shared.hashWrites = [] ∧ s.shared.nonceWrites = []
  winnerIsWorker : ∀ i ∈ s.shared.winners, i < s.workers.length
  ofWorker : ∀ i w, s.workers[i]? = some w →
    LocalInv sha b w ∧
    (if s.shared.winners = [i] then WinnerInv sha b s.shared i w else LoserInv s.shared w)
  noAbort : s.aborted = true → b.difficulty < 0

end Miner

namespace Miner

theorem hexByte_eq (v : Nat) (hv : v < 256) :
    hexByte v = [Nat.digitChar (v / 16), Nat.digitChar (v % 16)] := by
  interval_cases v <;> rfl

theorem foldl_append_eq {α β : Type} (f : α → List β) (l : List α) (acc : List β) :
    l.foldl (fun ss i => ss ++ f i) acc = acc ++ (l.map f).flatten := by
  induction l generalizing acc with
  | nil => simp
  | cons a t ih => simp [ih]

theorem join_pairs_even {α β : Type} (g₁ g₂ : α → β) (l : List α) (i : Nat) :
    ((l.map (fun a => [g₁ a, g₂ a])).flatten)[2 * i]? = (l[i]?).map g₁ := by
  induction l generalizing i with
  | nil => simp
  | cons a t ih =>
    cases i with
    | zero => simp
    | succ n =>
      have h : 2 * (n + 1) = 2 * n + 1 + 1 := by ring
      simp [h, ih]

theorem join_pairs_odd {α β : Type} (g₁ g₂ : α → β) (l : List α) (i : Nat) :
    ((l.map (fun a => [g₁ a, g₂ a])).flatten)[2 * i + 1]? = (l[i]?).map g₂ := by
  induction l generalizing i with
  | nil => simp
  | cons a t ih =>
    cases i with
    | zero => simp
    | succ n =>
      have h : 2 * (n + 1) + 1 = (2 * n + 1) + 1 + 1 := by ring
      simp [h, ih]

theorem flatten_pairs_length {α β : Type} (g₁ g₂ : α → β) (l : List α) :
    ((l.map (fun a => [g₁ a, g₂ a])).flatten).length = 2 * l.length := by
  induction l with
  | nil => simp
  | cons a t ih => simp [ih]; ring

theorem renderDigest_eq (hash : Digest) :
    renderDigest hash =
      ((List.finRange 32).map (fun i =>
        [Nat.digitChar ((hash i).val / 16), Nat.digitChar ((hash i).val % 16)])).flatten := by
  unfold renderDigest
  rw [foldl_append_eq]
  simp only [List.nil_append]
  congr 1
  apply List.map_congr_left
  intro i _
  exact hexByte_eq _ (hash i).isLt

theorem renderDigest_length (hash : Digest) : (renderDigest hash).length = 64 := by
  rw [renderDigest_eq, flatten_pairs_length]
  simp

theorem finRange_get? (i : Nat) (h : i < 32) : (List.finRange 32)[i]? = some ⟨i, h⟩ := by
  rw [List.getElem?_eq_getElem (by simpa using h)]
  simp

theorem renderDigest_get? (hash : Digest) (j : Nat) :
    (renderDigest hash)[j]? = (nibble hash j).map Nat.digitChar := by
  have hlen : (renderDigest hash).length = 64 := renderDigest_length hash
  rw [renderDigest_eq] at hlen ⊢
  unfold nibble
  by_cases h : j / 2 < 32
  · rcases Nat.mod_two_eq_zero_or_one j with h0 | h1
    · have hj : j = 2 * (j / 2) := by omega
      rw [hj, join_pairs_even, finRange_get? _ (by omega)]
      simp [h]
    · have hj : j = 2 * (j / 2) + 1 := by omega
      rw [hj, join_pairs_odd, finRange_get? _ (by omega)]
      have h2 : (2 * (j / 2) + 1) / 2 = j / 2 := by omega
      have h3 : (2 * (j / 2) + 1) % 2 = 1 := by omega
      simp [h, h2, h3]
  · rw [List.getElem?_eq_none (by omega)]
    simp [h]

theorem digitChar_eq_zero (n : Nat) (hn : n < 16) : Nat.digitChar n = '0' ↔ n = 0 := by
  interval_cases n <;> decide

theorem digitChar_hex (n : Nat) (hn : n < 16) :
    Nat.digitChar n ∈ "0123456789abcdef".toList := by
  interval_cases n <;> decide

theorem getElem?_set_cases {α : Type} (l : List α) (i j : Nat) (x y : α)
    (h : (l.set i x)[j]? = some y) :
    (j = i ∧ y = x) ∨ (j ≠ i ∧ l[j]? = some y) := by
  rw [List.getElem?_set] at h
  by_cases hij : i = j
  · subst hij
    left
    by_cases hl : i < l.length
    · simp [hl] at h
      exact ⟨rfl, h.symm⟩
    · simp [hl] at h
  · right
    simp only [hij, if_false] at h
    exact ⟨fun e => hij e.symm, h⟩

theorem lt_length_of_getElem? {α : Type} (l : List α) (i : Nat) (x : α)
    (h : l[i]? = some x) : i < l.length := by
  by_contra hc
  rw [List.getElem?_eq_none (by omega)] at h
  cases h

/-- A step of worker i that leaves the shared variables as they are keeps the
invariant, when the worker's own part holds afterwards. -/
theorem inv_of_local_step {sha : Str → Digest} {b : Block} {s : Sys} (h : Inv sha b s)
    (i : Nat) (w' : Worker)
    (hloc : LocalInv sha b w')
    (hme : if s.shared.winners = [i] then WinnerInv sha b s.shared i w'
           else LoserInv s.shared w')
    (t : Bool) (ht : t = true → b.difficulty < 0) :
    Inv sha b { shared := s.shared, workers := s.workers.set i w', aborted := t } := by
  refine ⟨h.atMostOne, h.flagIff, h.pristine, ?_, ?_, ht⟩
  · intro k hk
    simpa using h.winnerIsWorker k hk
  · intro j wj hj
    rcases getElem?_set_cases _ _ _ _ _ hj with ⟨rfl, rfl⟩ | ⟨_, hj'⟩
    · exact ⟨hloc, hme⟩
    · exact h.ofWorker j wj hj'

/-- A step of worker i after which i is the one winner keeps the invariant,
when the shared part and the worker's own part hold afterwards. -/
theorem inv_of_winner_step {sha : Str → Digest} {b : Block} {s : Sys} (h : Inv sha b s)
    (i : Nat) (w : Worker) (hw : s.workers[i]? = some w) (sh' : Shared) (w' : Worker)
    (hold : s.shared.winners = [] ∨ s.shared.winners = [i])
    (hnew : sh'.winners = [i])
    (hflag : sh'.solutionFound = true)
    (hloc : LocalInv sha b w')
    (hme : WinnerInv sha b sh' i w')
    (t : Bool) (ht : t = true → b.difficulty < 0) :
    Inv sha b { shared := sh', workers := s.workers.set i w', aborted := t } := by
  refine ⟨Or.inr ⟨i, hnew⟩, ?_, ?_, ?_, ?_, ht⟩
  · simp [hflag, hnew]
  · intro h0
    simp [hnew] at h0
  · intro k hk
    simp only [hnew, List.mem_singleton] at hk
    subst hk
    simpa using lt_length_of_getElem? _ _ _ hw
  · intro j wj hj
    rcases getElem?_set_cases _ _ _ _ _ hj with ⟨rfl, rfl⟩ | ⟨hne, hj'⟩
    · exact ⟨hloc, by simpa [hnew] using hme⟩
    · have hj2 := h.ofWorker j wj hj'
      refine ⟨hj2.1, ?_⟩
      have h1 : ¬ (sh'.winners = [j]) := by
        simp only [hnew]
        intro e
        exact hne (List.singleton_inj.mp e).symm
      have h2 : ¬ (s.shared.winners = [j]) := by
        rcases hold with e | e
        · simp [e]
        · rw [e]
          intro e'
          exact hne (List.singleton_inj.mp e').symm
      simp only [h1, if_false]
      have h3 : LoserInv s.shared wj := by simpa [h2] using hj2.2
      exact ⟨h3.1, fun _ => hflag⟩

theorem tried_snoc (w : Worker)
    (hshape : w.tried = (List.range w.tried.length).map (nonceAt w.start w.step))
    (hn : w.nonce = nonceAt w.start w.step w.tried.length) :
    w.tried ++ [w.nonce]
      = (List.range (w.tried ++ [w.nonce]).length).map (nonceAt w.start w.step) := by
  rw [List.length_append, List.length_singleton, List.range_succ, List.map_append,
    ← hshape, hn]
  simp

theorem inv_init (sha : Str → Digest) (b : Block) (params : List (Int × Int)) :
    Inv sha b (initSys params) := by
  refine ⟨Or.inl rfl, by simp [initSys, Shared.init], fun _ => by simp [initSys, Shared.init],
    by simp [initSys, Shared.init], ?_, by simp [initSys]⟩
  intro i w hw
  simp only [initSys, List.getElem?_map] at hw
  cases hp : params[i]? with
  | none => simp [hp] at hw
  | some p =>
    simp only [hp, Option.map, Option.some.injEq] at hw
    subst hw
    simp [LocalInv, Worker.init, Shared.init, PC.critical, initSys, LoserInv]

/-- The step of a worker keeps the invariant on the shared variables and the
workers, whatever the process state recorded with it. -/
theorem inv_workerStep {sha : Str → Digest} {b : Block} {s : Sys} (h : Inv sha b s) (i : Nat)
    (w : Worker) (hw : s.workers[i]? = some w) (t : Bool) (ht : t = true → b.difficulty < 0) :
    Inv sha b { shared := (mineWorkerStep sha b i s.shared w).1,
                workers := s.workers.set i (mineWorkerStep sha b i s.shared w).2,
                aborted := t } := by
    obtain ⟨⟨hshape, hloc⟩, hwin⟩ := h.ofWorker i w hw
    unfold mineWorkerStep
    cases hpc : w.pc with
    | entry =>
      simp only [hpc] at hloc hwin
      have hnw : ¬ (s.shared.winners = [i]) := by
        intro e; simp [e, WinnerInv, hpc] at hwin
      by_cases hd : b.difficulty < 0
      · simp only [hd, if_true]
        refine inv_of_local_step h i _ ?_ ?_ t ht
        · simp [LocalInv, hloc, hd]
        · simp [hnw, PC.critical, LoserInv]
      · simp only [hd, if_false]
        refine inv_of_local_step h i _ ?_ ?_ t ht
        · simp [LocalInv, hloc, Searching, nonceAt]
          omega
        · simp [hnw, PC.critical, LoserInv]
    | loopCheck =>
      simp only [hpc] at hloc hwin
      have hnw : ¬ (s.shared.winners = [i]) := by
        intro e; simp [e, WinnerInv, hpc] at hwin
      by_cases hf : s.shared.solutionFound = true
      · simp only [hf, if_true]
        refine inv_of_local_step h i _ ?_ ?_ t ht
        · exact ⟨hshape, trivial⟩
        · simp [hnw, PC.critical, LoserInv, hf]
      · simp only [hf]
        refine inv_of_local_step h i _ ?_ ?_ t ht
        · exact ⟨hshape, hloc⟩
        · simp [hnw, PC.critical, LoserInv, hf]
    | hashing =>
      simp only [hpc] at hloc hwin
      have hnw : ¬ (s.shared.winners = [i]) := by
        intro e; simp [e, WinnerInv, hpc] at hwin
      obtain ⟨hd, htp, hn, hfail⟩ := hloc
      have hsn := tried_snoc w hshape hn
      by_cases hm : substr (computeSHA256 sha (blockData b w.nonce)) 0 b.difficulty.toNat
          = w.targetPrefix
      · simp only [hm, if_true]
        refine inv_of_local_step h i _ ?_ ?_ t ht
        · refine ⟨hsn, hd, w.tried.length, by simp, hn, rfl, ?_, hfail⟩
          simpa [hit, htp] using hm
        · simp [hnw, PC.critical, LoserInv]
      · simp only [hm, if_false]
        refine inv_of_local_step h i _ ?_ ?_ t ht
        · refine ⟨hsn, hd, htp, ?_, ?_⟩
          · simp [nonceAt, hn]
          · intro k hk
            simp only [List.length_append, List.length_singleton] at hk
            rcases Nat.lt_succ_iff_lt_or_eq.mp hk with hlt | heq
            · exact hfail k hlt
            · subst heq
              rw [← hn]
              simpa [hit, htp] using hm
        · simp [hnw, PC.critical, LoserInv]
    | exchange =>
      simp only [hpc] at hloc hwin
      have hnw : ¬ (s.shared.winners = [i]) := by
        intro e; simp [e, WinnerInv, hpc] at hwin
      by_cases hf : s.shared.solutionFound = true
      · simp only [hf, if_true]
        have hsame : ({ s.shared with solutionFound := true } : Shared) = s.shared := by
          cases hs : s.shared
          simp [hs] at hf
          simp [hf]
        rw [hsame]
        refine inv_of_local_step h i _ ?_ ?_ t ht
        · exact ⟨hshape, trivial⟩
        · simp [hnw, PC.critical, LoserInv, hf]
      · simp only [hf]
        have hw0 : s.shared.winners = [] := by
          by_contra hc
          exact hf (h.flagIff.mpr hc)
        obtain ⟨hgh, hgn, hmx, hhw, hnws⟩ := h.pristine hw0
        refine inv_of_winner_step h i w hw _ _ (Or.inl hw0) ?_ ?_ ?_ ?_ t ht
        · simp [hw0]
        · rfl
        · exact ⟨hshape, hloc⟩
        · refine ⟨hloc, ?_⟩
          simp [hgh, hgn, hmx, hhw, hnws]
    | lock =>
      simp only [hpc] at hloc hwin
      have hiw : s.shared.winners = [i] := by
        by_contra hc; simp [hc, PC.critical, LoserInv, hpc] at hwin
      simp only [hiw, if_true, WinnerInv, hpc] at hwin
      obtain ⟨hmat, hmx, hgh, hgn, hhw, hnws⟩ := hwin
      simp only [hmx]
      refine inv_of_winner_step h i w hw _ _ (Or.inr hiw) ?_ ?_ ?_ ?_ t ht
      · simpa using hiw
      · simpa using h.flagIff.mpr (by simp [hiw])
      · exact ⟨hshape, hloc⟩
      · refine ⟨hmat, ?_⟩
        simp [hgh, hgn, hhw, hnws]
    | writeHash =>
      simp only [hpc] at hloc hwin
      have hiw : s.shared.winners = [i] := by
        by_contra hc; simp [hc, PC.critical, LoserInv, hpc] at hwin
      simp only [hiw, if_true, WinnerInv, hpc] at hwin
      obtain ⟨hmat, hmx, hgh, hgn, hhw, hnws⟩ := hwin
      refine inv_of_winner_step h i w hw _ _ (Or.inr hiw) ?_ ?_ ?_ ?_ t ht
      · simpa using hiw
      · simpa using h.flagIff.mpr (by simp [hiw])
      · exact ⟨hshape, hloc⟩
      · refine ⟨hmat, ?_⟩
        simp [hmx, hgn, hhw, hnws]
    | writeNonce =>
      simp only [hpc] at hloc hwin
      have hiw : s.shared.winners = [i] := by
        by_contra hc; simp [hc, PC.critical, LoserInv, hpc] at hwin
      simp only [hiw, if_true, WinnerInv, hpc] at hwin
      obtain ⟨hmat, hmx, hgh, hgn, hhw, hnws⟩ := hwin
      refine inv_of_winner_step h i w hw _ _ (Or.inr hiw) ?_ ?_ ?_ ?_ t ht
      · simpa using hiw
      · simpa using h.flagIff.mpr (by simp [hiw])
      · exact ⟨hshape, hloc⟩
      · refine ⟨hmat, ?_⟩
        simp [hmx, hgh, hhw, hnws]
    | unlock =>
      simp only [hpc] at hloc hwin
      have hiw : s.shared.winners = [i] := by
        by_contra hc; simp [hc, PC.critical, LoserInv, hpc] at hwin
      simp only [hiw, if_true, WinnerInv, hpc] at hwin
      obtain ⟨hmat, hmx, hgh, hgn, hhw, hnws⟩ := hwin
      refine inv_of_winner_step h i w hw _ _ (Or.inr hiw) ?_ ?_ ?_ ?_ t ht
      · simpa using hiw
      · simpa using h.flagIff.mpr (by simp [hiw])
      · exact ⟨hshape, trivial⟩
      · refine ⟨hmat, ?_⟩
        simp [hgh, hgn, hhw, hnws]
    | done =>
      have hself : s.workers.set i w = s.workers := by
        apply List.ext_getElem?
        intro j
        rw [List.getElem?_set]
        by_cases hij : i = j
        · subst hij
          simp [hw, lt_length_of_getElem? _ _ _ hw]
        · simp [hij]
      simp only [hself]
      exact ⟨h.atMostOne, h.flagIff, h.pristine, h.winnerIsWorker, h.ofWorker, ht⟩
    | threw =>
      have hself : s.workers.set i w = s.workers := by
        apply List.ext_getElem?
        intro j
        rw [List.getElem?_set]
        by_cases hij : i = j
        · subst hij
          simp [hw, lt_length_of_getElem? _ _ _ hw]
        · simp [hij]
      simp only [hself]
      exact ⟨h.atMostOne, h.flagIff, h.pristine, h.winnerIsWorker, h.ofWorker, ht⟩

/-- A step throws only at the entry, with a negative difficulty. -/
theorem threw_of_step {sha : Str → Digest} {b : Block} (i : Nat) (sh : Shared) (w : Worker)
    (hloc : LocalInv sha b w) (hthrew : (mineWorkerStep sha b i sh w).2.pc = PC.threw) :
    b.difficulty < 0 := by
  unfold mineWorkerStep at hthrew
  cases hpc : w.pc with
  | entry =>
    by_cases hd : b.difficulty < 0
    · exact hd
    · simp [hpc, hd] at hthrew
  | loopCheck => simp only [hpc] at hthrew; split at hthrew <;> simp at hthrew
  | hashing => simp only [hpc] at hthrew; split at hthrew <;> simp at hthrew
  | exchange => simp only [hpc] at hthrew; split at hthrew <;> simp at hthrew
  | lock => simp only [hpc] at hthrew; split at hthrew <;> simp [hpc] at hthrew
  | writeHash => simp [hpc] at hthrew
  | writeNonce => simp [hpc] at hthrew
  | unlock => simp [hpc] at hthrew
  | done => simp [hpc] at hthrew
  | threw =>
    have := hloc.2
    simp only [hpc] at this
    exact this.2

theorem sysStep_aborted (sha : Str → Digest) (b : Block) (i : Nat) (s : Sys)
    (hab : s.aborted = true) : sysStep sha b i s = s := by
  unfold sysStep
  simp [hab]

theorem sysStep_none (sha : Str → Digest) (b : Block) (i : Nat) (s : Sys)
    (hw : s.workers[i]? = none) : sysStep sha b i s = s := by
  unfold sysStep
  simp [hw]

theorem sysStep_some (sha : Str → Digest) (b : Block) (i : Nat) (s : Sys) (w : Worker)
    (hab : s.aborted = false) (hw : s.workers[i]? = some w) :
    sysStep sha b i s
      = { shared := (mineWorkerStep sha b i s.shared w).1,
          workers := s.workers.set i (mineWorkerStep sha b i s.shared w).2,
          aborted := decide ((mineWorkerStep sha b i s.shared w).2.pc = PC.threw) } := by
  unfold sysStep
  simp [hab, hw]

/-- The three cases of a scheduler turn. -/
theorem sysStep_cases (sha : Str → Digest) (b : Block) (i : Nat) (s : Sys) :
    sysStep sha b i s = s ∨
    ∃ w, s.aborted = false ∧ s.workers[i]? = some w ∧
      sysStep sha b i s
        = { shared := (mineWorkerStep sha b i s.shared w).1,
            workers := s.workers.set i (mineWorkerStep sha b i s.shared w).2,
            aborted := decide ((mineWorkerStep sha b i s.shared w).2.pc = PC.threw) } := by
  cases hab : s.aborted with
  | true => exact Or.inl (sysStep_aborted sha b i s hab)
  | false =>
    cases hw : s.workers[i]? with
    | none => exact Or.inl (sysStep_none sha b i s hw)
    | some w => exact Or.inr ⟨w, rfl, rfl, sysStep_some sha b i s w hab hw⟩

theorem inv_sysStep {sha : Str → Digest} {b : Block} {s : Sys} (h : Inv sha b s) (i : Nat) :
    Inv sha b (sysStep sha b i s) := by
  rcases sysStep_cases sha b i s with e | ⟨w, _, hw, e⟩
  · rw [e]; exact h
  · rw [e]
    apply inv_workerStep h i w hw
    intro ht
    exact threw_of_step i s.shared w (h.ofWorker i w hw).1 (by simpa using ht)

theorem inv_run (sha : Str → Digest) (b : Block) (sched : List Nat) (s : Sys)
    (h : Inv sha b s) : Inv sha b (run sha b sched s) := by
  induction sched generalizing s with
  | nil => exact h
  | cons i t ih => exact ih _ (inv_sysStep h i)

theorem inv_reachable (sha : Str → Digest) (b : Block) (params : List (Int × Int))
    (sched : List Nat) : Inv sha b (run sha b sched (initSys params)) :=
  inv_run sha b sched _ (inv_init sha b params)

theorem run_cons (sha : Str → Digest) (b : Block) (j : Nat) (t : List Nat) (s : Sys) :
    run sha b (j :: t) s = run sha b t (sysStep sha b j s) := rfl

theorem run_append (sha : Str → Digest) (b : Block) (s₁ s₂ : List Nat) (s : Sys) :
    run sha b (s₁ ++ s₂) s = run sha b s₂ (run sha b s₁ s) := by
  simp [run, List.foldl_append]

theorem not_aborted {sha : Str → Digest} {b : Block} {s : Sys} (h : Inv sha b s)
    (hd : 0 ≤ b.difficulty) : s.aborted = false := by
  cases hab : s.aborted with
  | false => rfl
  | true => have := h.noAbort hab; omega

theorem sysStep_self (sha : Str → Digest) (b : Block) (i : Nat) (s : Sys) (w : Worker)
    (hab : s.aborted = false) (hw : s.workers[i]? = some w) :
    (sysStep sha b i s).shared = (mineWorkerStep sha b i s.shared w).1 ∧
    (sysStep sha b i s).workers[i]? = some (mineWorkerStep sha b i s.shared w).2 := by
  have hlt := lt_length_of_getElem? _ _ _ hw
  rw [sysStep_some sha b i s w hab hw]
  simp [hlt]

theorem sysStep_other (sha : Str → Digest) (b : Block) (i j : Nat) (s : Sys) (hij : j ≠ i) :
    (sysStep sha b j s).workers[i]? = s.workers[i]? := by
  rcases sysStep_cases sha b j s with e | ⟨wj, _, _, e⟩
  · rw [e]
  · rw [e]
    simp [List.getElem?_set, hij]

theorem mineWorkerStep_flag_mono (sha : Str → Digest) (b : Block) (i : Nat) (sh : Shared)
    (w : Worker) (hf : sh.solutionFound = true) :
    (mineWorkerStep sha b i sh w).1.solutionFound = true := by
  unfold mineWorkerStep
  cases w.pc <;> simp [hf] <;> split <;> simp [hf]

/-- The (start, step) pairs of the workers of a state. -/
theorem mineWorkerStep_params (sha : Str → Digest) (b : Block) (i : Nat) (sh : Shared) (w : Worker) :
    (mineWorkerStep sha b i sh w).2.start = w.start ∧ (mineWorkerStep sha b i sh w).2.step = w.step := by
  unfold mineWorkerStep
  cases w.pc <;> simp <;> split <;> simp

/-- Once the invariant holds and the flag is set, one worker is the winner
and the invariant ties the result fields to it. -/
theorem winner_of_flag {sha : Str → Digest} {b : Block} {s : Sys} (h : Inv sha b s)
    (hf : s.shared.solutionFound = true) :
    ∃ i w, s.workers[i]? = some w ∧ s.shared.winners = [i] ∧ WinnerInv sha b s.shared i w := by
  have hne := h.flagIff.mp hf
  rcases h.atMostOne with h0 | ⟨i, hi⟩
  · exact absurd h0 hne
  · have hlt := h.winnerIsWorker i (by simp [hi])
    refine ⟨i, s.workers[i], by simp [hlt], hi, ?_⟩
    have := (h.ofWorker i s.workers[i] (by simp [hlt])).2
    simpa [hi] using this

theorem hit_take {sha : Str → Digest} {b : Block} {n : Int} (h : hit sha b n) (j : Nat)
    (hj : (j : Int) < b.difficulty) :
    (computeSHA256 sha (blockData b n))[j]? = some '0' := by
  have hj' : j < b.difficulty.toNat := by omega
  unfold hit substr at h
  rw [List.drop_zero] at h
  have h1 : ((computeSHA256 sha (blockData b n)).take b.difficulty.toNat)[j]?
      = (List.replicate b.difficulty.toNat '0')[j]? := by rw [h]
  rw [List.getElem?_take_of_lt hj'] at h1
  rw [h1]
  simp [List.getElem?_replicate, hj']

/-- C1 (P1, correctness of match). For every hash primitive, block, difficulty
(in particular 0 ≤ d ≤ 64), number of workers W (in particular W ≥ 1) and
schedule: when the run has ended (every worker has returned) with
`solutionFound = true`, `globalHash` is `computeSHA256` of
decimal(blockNumber) ++ transactions ++ previousHash ++ decimal(globalNonce),
and each of its first d characters is '0'. -/
theorem C1_match_correct (sha : Str → Digest) (b : Block) (W : Nat) (sched : List Nat)
    (hend : allDone (run sha b sched (mainLaunch W)))
    (hfound : (run sha b sched (mainLaunch W)).shared.solutionFound = true) :
    (run sha b sched (mainLaunch W)).shared.globalHash
        = computeSHA256 sha (decimal b.blockNumber ++ b.transactions ++ b.previousHash
            ++ decimal (run sha b sched (mainLaunch W)).shared.globalNonce) ∧
    ∀ j : Nat, (j : Int) < b.difficulty →
      (run sha b sched (mainLaunch W)).shared.globalHash[j]? = some '0' := by
  have hinv : Inv sha b (run sha b sched (mainLaunch W)) := inv_reachable sha b _ sched
  obtain ⟨i, w, hw, _, hmat, hwi⟩ := winner_of_flag hinv hfound
  have hpc : w.pc = PC.done := hend w (List.getElem?_mem hw)
  simp only [hpc] at hwi
  obtain ⟨_, hgh, hgn, _, _⟩ := hwi
  obtain ⟨_, k, _, _, hhash, hhit, _⟩ := hmat
  have e : (run sha b sched (mainLaunch W)).shared.globalHash
      = computeSHA256 sha (blockData b (run sha b sched (mainLaunch W)).shared.globalNonce) := by
    rw [hgh, hgn]; exact hhash
  refine ⟨e, ?_⟩
  intro j hj
  rw [e]
  rw [hgn]
  exact hit_take hhit j hj

set_option maxRecDepth 100000 in
/-- C1 at a concrete run: two workers, difficulty 2, worker 0 finds nonce 2. -/
theorem C1_match_correct_witness :
    allDone (run toySha (toyBlock 2) [0, 0, 0, 0, 0, 0, 0, 0, 0, 0, 1, 1] (mainLaunch 2)) ∧
    (run toySha (toyBlock 2) [0, 0, 0, 0, 0, 0, 0, 0, 0, 0, 1, 1] (mainLaunch 2)).shared.solutionFound
      = true ∧
    ((run toySha (toyBlock 2) [0, 0, 0, 0, 0, 0, 0, 0, 0, 0, 1, 1] (mainLaunch 2)).shared.globalHash
        = computeSHA256 toySha (decimal (toyBlock 2).blockNumber ++ (toyBlock 2).transactions
            ++ (toyBlock 2).previousHash ++ decimal
              (run toySha (toyBlock 2) [0, 0, 0, 0, 0, 0, 0, 0, 0, 0, 1, 1]
                (mainLaunch 2)).shared.globalNonce) ∧
      ∀ j : Nat, (j : Int) < (toyBlock 2).difficulty →
        (run toySha (toyBlock 2) [0, 0, 0, 0, 0, 0, 0, 0, 0, 0, 1, 1]
          (mainLaunch 2)).shared.globalHash[j]? = some '0') :=
  ⟨by decide, by decide,
    C1_match_correct toySha (toyBlock 2) 2 [0, 0, 0, 0, 0, 0, 0, 0, 0, 0, 1, 1]
      (by decide) (by decide)⟩

theorem nonceAt_eq (start step : Int) (k : Nat) : nonceAt start step k = start + k * step := by
  induction k with
  | zero => simp [nonceAt]
  | succ n ih => simp [nonceAt, ih]; ring

/-- While `start + k * step` is at most `LONG_MAX` (with `start ≥ 0`,
`step ≥ 0`), every value `nonce` takes up to iteration k lies in the range of a
64-bit `long`: the additions of line 57 do not overflow. -/
theorem nonceAt_in_long_range (start step : Int) (k : Nat) (hs : 0 ≤ start) (ht : 0 ≤ step)
    (hk : start + k * step ≤ LONG_MAX) :
    ∀ j ≤ k, 0 ≤ nonceAt start step j ∧ nonceAt start step j ≤ LONG_MAX := by
  intro j hj
  rw [nonceAt_eq]
  have h1 : (0 : Int) ≤ (j : Int) * step := mul_nonneg (by positivity) ht
  have h2 : (j : Int) * step ≤ (k : Int) * step :=
    mul_le_mul_of_nonneg_right (by exact_mod_cast hj) ht
  constructor <;> linarith

theorem sysStep_params (sha : Str → Digest) (b : Block) (i : Nat) (s : Sys) :
    (sysStep sha b i s).workers.map (fun w => (w.start, w.step))
      = s.workers.map (fun w => (w.start, w.step)) := by
  rcases sysStep_cases sha b i s with e | ⟨w, _, hw, e⟩
  · rw [e]
  · rw [e]
    apply List.ext_getElem?
    intro j
    simp only [List.getElem?_map, List.getElem?_set]
    by_cases hij : i = j
    · subst hij
      have hlt := lt_length_of_getElem? _ _ _ hw
      have hp := mineWorkerStep_params sha b i s.shared w
      simp [hlt, hw, hp.1, hp.2]
    · simp [hij]

theorem run_params (sha : Str → Digest) (b : Block) (sched : List Nat) (s : Sys) :
    (run sha b sched s).workers.map (fun w => (w.start, w.step))
      = s.workers.map (fun w => (w.start, w.step)) := by
  induction sched generalizing s with
  | nil => rfl
  | cons i t ih =>
    show (run sha b t (sysStep sha b i s)).workers.map _ = _
    rw [ih, sysStep_params]

/-- Worker i of a run started from `initSys params` still has the start and
step of the i-th pair. -/
theorem reachable_params (sha : Str → Digest) (b : Block) (params : List (Int × Int))
    (sched : List Nat) (i : Nat) (w : Worker)
    (hw : (run sha b sched (initSys params)).workers[i]? = some w) :
    params[i]? = some (w.start, w.step) := by
  have h := run_params sha b sched (initSys params)
  have h2 : ((run sha b sched (initSys params)).workers.map (fun w => (w.start, w.step)))[i]?
      = some (w.start, w.step) := by
    simp [List.getElem?_map, hw]
  rw [h] at h2
  simpa [initSys, Worker.init, List.getElem?_map, Function.comp_def] using h2

theorem mainLaunch_params (sha : Str → Digest) (b : Block) (W : Nat)
    (sched : List Nat) (i : Nat) (w : Worker)
    (hw : (run sha b sched (mainLaunch W)).workers[i]? = some w) :
    i < W ∧ w.start = i ∧ w.step = W := by
  have h := reachable_params sha b _ sched i w hw
  rw [List.getElem?_map] at h
  by_cases hi : i < W
  · rw [List.getElem?_range hi] at h
    simp at h
    exact ⟨hi, h.1.symm, h.2.symm⟩
  · rw [List.getElem?_eq_none (by simpa using hi)] at h
    simp at h

theorem sysStep_flag_mono (sha : Str → Digest) (b : Block) (i : Nat) (s : Sys)
    (hf : s.shared.solutionFound = true) : (sysStep sha b i s).shared.solutionFound = true := by
  rcases sysStep_cases sha b i s with e | ⟨w, _, _, e⟩
  · rw [e]; exact hf
  · rw [e]; exact mineWorkerStep_flag_mono sha b i s.shared w hf

theorem run_snoc (sha : Str → Digest) (b : Block) (l : List Nat) (j : Nat) (s : Sys) :
    run sha b (l ++ [j]) s = sysStep sha b j (run sha b l s) := by
  rw [run_append]; rfl

/-- One turn of a worker, while the flag is false before and after it, moves
the worker one position along its loop. -/
theorem turn_step (sha : Str → Digest) (b : Block) (hd : 0 ≤ b.difficulty) (i : Nat)
    (sh : Shared) (w : Worker) (c : Nat) (hf : sh.solutionFound = false)
    (hf' : (mineWorkerStep sha b i sh w).1.solutionFound = false) (h : TurnInv c w) :
    TurnInv (c + 1) (mineWorkerStep sha b i sh w).2 := by
  have hd' : ¬ b.difficulty < 0 := by omega
  unfold mineWorkerStep at hf' ⊢
  rcases h with ⟨hc, hpc, hl⟩ | ⟨hc, hpc | hpc, hl⟩ | ⟨hc2, hc, hpc, hl⟩
  · subst hc
    simp [hpc, hd', TurnInv, hl]
  · right; right
    simp only [hpc, hf]
    refine ⟨by omega, by omega, rfl, ?_⟩
    show w.tried.length = (c + 1 - 1) / 2
    omega
  · simp [hpc, hf] at hf'
  · right; left
    simp only [hpc]
    split
    · refine ⟨by omega, Or.inr rfl, ?_⟩
      simp only [List.length_append, List.length_singleton, hl]
      omega
    · refine ⟨by omega, Or.inl rfl, ?_⟩
      simp only [List.length_append, List.length_singleton, hl]
      omega

/-- While no exchange has been made, every worker of a run is where its
number of turns puts it. -/
theorem turns_inv (sha : Str → Digest) (b : Block) (hd : 0 ≤ b.difficulty)
    (params : List (Int × Int)) (sched : List Nat)
    (hopen : (run sha b sched (initSys params)).shared.solutionFound = false)
    (i : Nat) (w : Worker) (hw : (run sha b sched (initSys params)).workers[i]? = some w) :
    TurnInv (sched.count i) w := by
  induction sched using List.reverseRecOn generalizing w with
  | nil =>
    left
    have hw' : (initSys params).workers[i]? = some w := hw
    simp only [initSys, List.getElem?_map] at hw'
    cases hp : params[i]? with
    | none => simp [hp] at hw'
    | some p =>
      simp only [hp, Option.map, Option.some.injEq] at hw'
      subst hw'
      simp [Worker.init]
  | append_singleton l j ih =>
    rw [run_snoc] at hopen hw
    have hinv : Inv sha b (run sha b l (initSys params)) := inv_reachable sha b params l
    have hopen0 : (run sha b l (initSys params)).shared.solutionFound = false := by
      cases hfl : (run sha b l (initSys params)).shared.solutionFound with
      | false => rfl
      | true =>
        have := sysStep_flag_mono sha b j _ hfl
        rw [hopen] at this
        cases this
    by_cases hji : j = i
    · subst hji
      have hlt : j < (run sha b l (initSys params)).workers.length := by
        have := lt_length_of_getElem? _ _ _ hw
        have hlen := congrArg List.length (sysStep_params sha b j (run sha b l (initSys params)))
        simp only [List.length_map] at hlen
        omega
      have hw0 : (run sha b l (initSys params)).workers[j]?
          = some (run sha b l (initSys params)).workers[j] := by simp [hlt]
      have hab := not_aborted hinv hd
      obtain ⟨hs1, hw1⟩ := sysStep_self sha b j _ _ hab hw0
      rw [hw1] at hw
      simp only [Option.some.injEq] at hw
      subst hw
      rw [hs1] at hopen
      have hc : List.count j (l ++ [j]) = List.count j l + 1 := by simp
      rw [hc]
      exact turn_step sha b hd j _ _ _ hopen0 hopen (ih hopen0 _ hw0)
    · rw [sysStep_other sha b i j _ hji] at hw
      have hc : List.count i (l ++ [j]) = List.count i l := by
        simp [List.count_cons_of_ne (fun e => hji e.symm)]
      rw [hc]
      exact ih hopen0 w hw

/-- While no exchange has been made, worker i of `main` has hashed exactly one
candidate for every two turns after its first, and these are the nonces
i, i + W, i + 2*W, ... in this order. -/
theorem tried_of_turns (sha : Str → Digest) (b : Block) (hd : 0 ≤ b.difficulty) (W : Nat)
    (sched : List Nat)
    (hopen : (run sha b sched (mainLaunch W)).shared.solutionFound = false)
    (i : Nat) (hi : i < W) :
    ∃ w, (run sha b sched (mainLaunch W)).workers[i]? = some w ∧
      w.tried = (List.range ((sched.count i - 1) / 2)).map
        (fun k : Nat => (i : Int) + (k : Int) * (W : Int)) := by
  have hlen : (run sha b sched (mainLaunch W)).workers.length = W := by
    have h := congrArg List.length (run_params sha b sched (mainLaunch W))
    simpa [mainLaunch, initSys] using h
  have hw : (run sha b sched (mainLaunch W)).workers[i]?
      = some (run sha b sched (mainLaunch W)).workers[i] := by simp [hlen, hi]
  refine ⟨_, hw, ?_⟩
  obtain ⟨_, hs, ht⟩ := mainLaunch_params sha b W sched i _ hw
  have hshape := ((inv_reachable sha b _ sched).ofWorker i _ hw).1.1
  have hturn := turns_inv sha b hd _ sched hopen i _ hw
  have hl : (run sha b sched (mainLaunch W)).workers[i].tried.length
      = (sched.count i - 1) / 2 := by
    rcases hturn with ⟨hc, _, hl⟩ | ⟨_, _, hl⟩ | ⟨_, _, _, hl⟩
    · rw [hl, hc]
    · exact hl
    · exact hl
  rw [hshape, hl, hs, ht]
  apply List.map_congr_left
  intro k _
  exact nonceAt_eq _ _ _

/-- C2 (P3, partition coverage). For W ≥ 1 workers and every bound K: `main`
creates exactly the workers i = 0 .. W-1 with `start = i`, `step = W`; in
every run the k-th nonce that worker i hashes is i + k*W, which is the value
of `nonce` after k executions of `nonce += step`. In every run in which no
solution has been found yet, worker i has hashed exactly the nonces
i, i + W, ..., one for every two turns it was given after its first; when
every worker was given at least 2*K + 1 turns, every n in [0, K) has been
hashed by worker n mod W, at position n / W; in every run no other worker
and no other position hashes n; and no hashed nonce is negative, so the nonces
below K hashed by the workers together are exactly the integers of [0, K),
without gap or duplicate. -/
theorem C2_partition_coverage (W K : Nat) (hW : 1 ≤ W) :
    (mainLaunch W).workers.length = W ∧
    (∀ i : Nat, i < W → (mainLaunch W).workers[i]? = some (Worker.init (i : Int) (W : Int))) ∧
    (∀ (sha : Str → Digest) (b : Block) (sched : List Nat) (i : Nat) (w : Worker) (k : Nat)
        (n : Int), (run sha b sched (mainLaunch W)).workers[i]? = some w →
        w.tried[k]? = some n → n = (i : Int) + (k : Int) * (W : Int)) ∧
    (∀ i k : Nat, nonceAt (i : Int) (W : Int) k = (i : Int) + (k : Int) * (W : Int)) ∧
    (∀ n : Nat, n < K → ∃ k : Nat, n % W < W ∧
        nonceAt ((n % W : Nat) : Int) (W : Int) k = (n : Int) ∧
        ∀ i j : Nat, i < W → nonceAt (i : Int) (W : Int) j = (n : Int) → i = n % W ∧ j = k) ∧
    (∀ i k : Nat, i < W → nonceAt (i : Int) (W : Int) k < (K : Int) →
        0 ≤ nonceAt (i : Int) (W : Int) k) ∧
    (∀ (sha : Str → Digest) (b : Block) (sched : List Nat), 0 ≤ b.difficulty →
        (run sha b sched (mainLaunch W)).shared.solutionFound = false →
        ∀ i : Nat, i < W →
          ∃ w, (run sha b sched (mainLaunch W)).workers[i]? = some w ∧
            w.tried = (List.range ((sched.count i - 1) / 2)).map
              (fun k : Nat => (i : Int) + (k : Int) * (W : Int))) ∧
    (∀ (sha : Str → Digest) (b : Block) (sched : List Nat), 0 ≤ b.difficulty →
        (run sha b sched (mainLaunch W)).shared.solutionFound = false →
        (∀ i : Nat, i < W → 2 * K + 1 ≤ sched.count i) →
        ∀ n : Nat, n < K →
          ∃ w, (run sha b sched (mainLaunch W)).workers[n % W]? = some w ∧
            w.tried[n / W]? = some (n : Int)) ∧
    (∀ (sha : Str → Digest) (b : Block) (sched : List Nat) (n : Nat) (i : Nat) (w : Worker)
        (k : Nat), (run sha b sched (mainLaunch W)).workers[i]? = some w →
        w.tried[k]? = some (n : Int) → i = n % W ∧ k = n / W) ∧
    (∀ (sha : Str → Digest) (b : Block) (sched : List Nat) (i : Nat) (w : Worker) (n : Int),
        (run sha b sched (mainLaunch W)).workers[i]? = some w → n ∈ w.tried → 0 ≤ n) := by
  have hpos : 0 < W := hW
  have hkth : ∀ (sha : Str → Digest) (b : Block) (sched : List Nat) (i : Nat) (w : Worker)
      (k : Nat) (n : Int), (run sha b sched (mainLaunch W)).workers[i]? = some w →
      w.tried[k]? = some n → n = (i : Int) + (k : Int) * (W : Int) := by
    intro sha b sched i w k n hw hk
    obtain ⟨_, hs, ht⟩ := mainLaunch_params sha b W sched i w hw
    have hshape := ((inv_reachable sha b _ sched).ofWorker i w hw).1.1
    rw [hshape, List.getElem?_map] at hk
    by_cases hlt : k < w.tried.length
    · rw [List.getElem?_range hlt] at hk
      simp only [Option.map, Option.some.injEq] at hk
      rw [← hk, nonceAt_eq, hs, ht]
    · rw [List.getElem?_eq_none (by simpa using hlt)] at hk
      simp at hk
  have huniq : ∀ (n i j : Nat), i < W → (n : Int) = (i : Int) + (j : Int) * (W : Int) →
      i = n % W ∧ j = n / W := by
    intro n i j hi hj
    have hj' : n = i + j * W := by exact_mod_cast hj
    subst hj'
    constructor
    · rw [Nat.add_mul_mod_self_right, Nat.mod_eq_of_lt hi]
    · rw [Nat.add_mul_div_right _ _ hpos, Nat.div_eq_of_lt hi, Nat.zero_add]
  refine ⟨by simp [mainLaunch, initSys], ?_, hkth, fun i k => nonceAt_eq _ _ _, ?_, ?_,
    ?_, ?_, ?_, ?_⟩
  · intro i hi
    simp [mainLaunch, initSys, List.getElem?_map, List.getElem?_range hi]
  · intro n _
    refine ⟨n / W, Nat.mod_lt _ hpos, ?_, ?_⟩
    · rw [nonceAt_eq]
      have := Nat.mod_add_div n W
      have h2 : n % W + n / W * W = n := by rw [Nat.mul_comm]; exact this
      exact_mod_cast h2
    · intro i j hi hj
      rw [nonceAt_eq] at hj
      exact huniq n i j hi hj.symm
  · intro i k _ _
    rw [nonceAt_eq]
    positivity
  · intro sha b sched hd hopen i hi
    exact tried_of_turns sha b hd W sched hopen i hi
  · intro sha b sched hd hopen hfair n hn
    have hmod : n % W < W := Nat.mod_lt _ hpos
    obtain ⟨w, hw, htr⟩ := tried_of_turns sha b hd W sched hopen (n % W) hmod
    refine ⟨w, hw, ?_⟩
    have hturns := hfair (n % W) hmod
    have hdiv : n / W ≤ n := Nat.div_le_self n W
    have hlt : n / W < (sched.count (n % W) - 1) / 2 := by omega
    rw [htr, List.getElem?_map, List.getElem?_range hlt]
    simp only [Option.map, Option.some.injEq]
    have h2 : n % W + n / W * W = n := by rw [Nat.mul_comm]; exact Nat.mod_add_div n W
    exact_mod_cast h2
  · intro sha b sched n i w k hw hk
    obtain ⟨hi, _, _⟩ := mainLaunch_params sha b W sched i w hw
    exact huniq n i k hi (hkth sha b sched i w k _ hw hk)
  · intro sha b sched i w n hw hn
    obtain ⟨k, hk⟩ := List.mem_iff_getElem?.mp hn
    rw [hkth sha b sched i w k n hw hk]
    positivity

set_option maxRecDepth 100000 in
/-- C2 for two workers and the bound 4, in a run at difficulty 65 in which
each worker is given nine turns: worker 0 has hashed 0, 2, 4, 6 and worker 1
has hashed 1, 3, 5, 7, so every n below 4 has been hashed, by worker n mod 2
at position n / 2. -/
theorem C2_partition_coverage_witness :
    1 ≤ 2 ∧ 0 ≤ (toyBlock 65).difficulty ∧
    (run toySha (toyBlock 65) [0, 1, 1, 0, 0, 1, 0, 1, 1, 0, 0, 1, 0, 1, 1, 0, 0, 1]
      (mainLaunch 2)).shared.solutionFound = false ∧
    (∀ i : Nat, i < 2 →
      2 * 4 + 1 ≤ List.count i [0, 1, 1, 0, 0, 1, 0, 1, 1, 0, 0, 1, 0, 1, 1, 0, 0, 1]) ∧
    (run toySha (toyBlock 65) [0, 1, 1, 0, 0, 1, 0, 1, 1, 0, 0, 1, 0, 1, 1, 0, 0, 1]
      (mainLaunch 2)).workers.map (fun w => w.tried) = [[0, 2, 4, 6], [1, 3, 5, 7]] ∧
    (∀ n : Nat, n < 4 →
      ∃ w, (run toySha (toyBlock 65) [0, 1, 1, 0, 0, 1, 0, 1, 1, 0, 0, 1, 0, 1, 1, 0, 0, 1]
          (mainLaunch 2)).workers[n % 2]? = some w ∧
        w.tried[n / 2]? = some (n : Int)) :=
  ⟨by decide, by decide, by decide, by decide, by decide,
    (C2_partition_coverage 2 4 (by decide)).2.2.2.2.2.2.2.1 toySha (toyBlock 65)
      [0, 1, 1, 0, 0, 1, 0, 1, 1, 0, 0, 1, 0, 1, 1, 0, 0, 1]
      (by decide) (by decide) (by decide)⟩

/-- Under the invariant each result field has been assigned at most once, and
only by the winner. -/
theorem writes_of_inv {sha : Str → Digest} {b : Block} {s : Sys} (h : Inv sha b s) :
    s.shared.hashWrites.length ≤ 1 ∧ s.shared.nonceWrites.length ≤ 1 ∧
    s.shared.winners.length ≤ 1 ∧
    (∀ i ∈ s.shared.hashWrites, i ∈ s.shared.winners) ∧
    (∀ i ∈ s.shared.nonceWrites, i ∈ s.shared.winners) := by
  rcases h.atMostOne with h0 | ⟨i, hi⟩
  · obtain ⟨_, _, _, hh, hn⟩ := h.pristine h0
    simp [h0, hh, hn]
  · have hlt := h.winnerIsWorker i (by simp [hi])
    have hwi := (h.ofWorker i s.workers[i] (by simp [hlt])).2
    simp only [hi, if_true, WinnerInv] at hwi
    obtain ⟨_, hwi⟩ := hwi
    split at hwi <;> first
      | exact absurd hwi id
      | (obtain ⟨_, _, _, hh, hn⟩ := hwi
         simp [hi, hh, hn])

theorem hit_of_difficulty_zero (sha : Str → Digest) (b : Block) (hd : b.difficulty = 0)
    (n : Int) : hit sha b n := by
  simp [hit, hd, substr]

theorem run_length (sha : Str → Digest) (b : Block) (sched : List Nat) (s : Sys) :
    (run sha b sched s).workers.length = s.workers.length := by
  have h := congrArg List.length (run_params sha b sched s)
  simpa using h

theorem flag_of_allDone {sha : Str → Digest} {b : Block} {s : Sys} (h : Inv sha b s)
    (hlen : 0 < s.workers.length) (hend : allDone s) : s.shared.solutionFound = true := by
  have hw : s.workers[0]? = some s.workers[0] := by simp [hlen]
  have hpc : s.workers[0].pc = PC.done := hend _ (List.getElem?_mem hw)
  have h2 := (h.ofWorker 0 _ hw).2
  by_cases hwin : s.shared.winners = [0]
  · exact h.flagIff.mpr (by simp [hwin])
  · simp only [hwin, if_false] at h2
    exact h2.2 hpc

/-- At difficulty 0 every turn of a worker that has not returned brings it
closer to its return: the loop has one iteration and the mutex is free when
the winner asks for it. -/
theorem progress_step {sha : Str → Digest} {b : Block} {s : Sys} (h : Inv sha b s)
    (hd : b.difficulty = 0) (i : Nat) (w : Worker) (hw : s.workers[i]? = some w) :
    ∃ w', (sysStep sha b i s).workers[i]? = some w' ∧
      w'.pc.stepsLeft ≤ w.pc.stepsLeft - 1 := by
  obtain ⟨_, hw'⟩ := sysStep_self sha b i s w (not_aborted h (by omega)) hw
  refine ⟨_, hw', ?_⟩
  obtain ⟨⟨_, hloc⟩, hwin⟩ := h.ofWorker i w hw
  unfold mineWorkerStep
  cases hpc : w.pc with
  | entry => simp [hd, PC.stepsLeft]
  | loopCheck => simp only []; split <;> simp [PC.stepsLeft]
  | hashing =>
    simp only [hpc] at hloc
    have htp : w.targetPrefix = [] := by rw [hloc.2.1, hd]; rfl
    simp [hd, htp, substr, PC.stepsLeft]
  | exchange => simp only []; split <;> simp [PC.stepsLeft]
  | lock =>
    have hiw : s.shared.winners = [i] := by
      by_contra hc; simp [hc, PC.critical, LoserInv, hpc] at hwin
    simp only [hiw, if_true, WinnerInv, hpc] at hwin
    simp [hwin.2.1, PC.stepsLeft]
  | writeHash => simp [PC.stepsLeft]
  | writeNonce => simp [PC.stepsLeft]
  | unlock => simp [PC.stepsLeft]
  | done => simp [hpc, PC.stepsLeft]
  | threw => simp [hpc, PC.stepsLeft]

theorem progress_run {sha : Str → Digest} {b : Block} (hd : b.difficulty = 0)
    (sched : List Nat) (s : Sys) (h : Inv sha b s) (i : Nat) (w : Worker)
    (hw : s.workers[i]? = some w) :
    ∃ w', (run sha b sched s).workers[i]? = some w' ∧
      w'.pc.stepsLeft ≤ w.pc.stepsLeft - sched.count i := by
  induction sched generalizing s w with
  | nil => exact ⟨w, hw, by simp⟩
  | cons j t ih =>
    show ∃ w', (run sha b t (sysStep sha b j s)).workers[i]? = some w' ∧ _
    by_cases hji : j = i
    · subst hji
      obtain ⟨w₁, hw₁, hr₁⟩ := progress_step h hd j w hw
      obtain ⟨w', hw', hr'⟩ := ih _ (inv_sysStep h j) w₁ hw₁
      refine ⟨w', hw', ?_⟩
      simp only [List.count_cons_self]
      omega
    · have hw₁ : (sysStep sha b j s).workers[i]? = some w := by
        rw [sysStep_other sha b i j s hji]; exact hw
      obtain ⟨w', hw', hr'⟩ := ih _ (inv_sysStep h j) w hw₁
      refine ⟨w', hw', ?_⟩
      rw [List.count_cons_of_ne (fun e => hji e.symm)]
      exact hr'

/-- At difficulty 0, a schedule that gives every worker at least eight turns
ends with every worker returned. -/
theorem allDone_of_fair (sha : Str → Digest) (b : Block) (hd : b.difficulty = 0) (N : Nat)
    (sched : List Nat) (hfair : ∀ i : Nat, i < N → 8 ≤ sched.count i) :
    allDone (run sha b sched (mainLaunch N)) := by
  intro w hw
  obtain ⟨i, hi⟩ := List.mem_iff_getElem?.mp hw
  obtain ⟨hiN, _, _⟩ := mainLaunch_params sha b N sched i w hi
  have h0 : (mainLaunch N).workers[i]? = some (Worker.init (i : Int) (N : Int)) := by
    simp [mainLaunch, initSys, List.getElem?_map, List.getElem?_range hiN]
  have hinv0 : Inv sha b (mainLaunch N) := inv_init sha b _
  obtain ⟨w', hw', hr⟩ := progress_run hd sched (mainLaunch N) hinv0 i _ h0
  rw [hi] at hw'
  simp only [Option.some.injEq] at hw'
  subst hw'
  have h8 := hfair i hiN
  have hz : w.pc.stepsLeft = 0 := by
    have : (Worker.init (i : Int) (N : Int)).pc.stepsLeft = 8 := rfl
    omega
  have hinv : Inv sha b (run sha b sched (mainLaunch N)) := inv_reachable sha b _ sched
  have hloc := (hinv.ofWorker i w hi).1.2
  cases hpc : w.pc with
  | done => rfl
  | threw =>
    simp only [hpc] at hloc
    omega
  | entry => simp [hpc, PC.stepsLeft] at hz
  | loopCheck => simp [hpc, PC.stepsLeft] at hz
  | hashing => simp [hpc, PC.stepsLeft] at hz
  | exchange => simp [hpc, PC.stepsLeft] at hz
  | lock => simp [hpc, PC.stepsLeft] at hz
  | writeHash => simp [hpc, PC.stepsLeft] at hz
  | writeNonce => simp [hpc, PC.stepsLeft] at hz
  | unlock => simp [hpc, PC.stepsLeft] at hz

/-- C3 (P2, exactly one writer). For N ≥ 1 workers and every schedule:
`globalHash` and `globalNonce` have each been assigned at most once, at most
one `exchange` has returned false, and every assignment was made by a worker
whose `exchange` returned false. With difficulty 0, when all workers have
returned exactly one worker i has written: both fields were assigned once, by
i, and they hold worker i's nonce (its start, i) and the hash of the
candidate with that nonce; and every schedule that gives each worker at least
eight turns ends in such a state. -/
theorem C3_exactly_one_writer (sha : Str → Digest) (b : Block) (N : Nat) (sched : List Nat)
    (hN : 1 ≤ N) :
    (run sha b sched (mainLaunch N)).shared.hashWrites.length ≤ 1 ∧
    (run sha b sched (mainLaunch N)).shared.nonceWrites.length ≤ 1 ∧
    (run sha b sched (mainLaunch N)).shared.winners.length ≤ 1 ∧
    (∀ i ∈ (run sha b sched (mainLaunch N)).shared.hashWrites,
      i ∈ (run sha b sched (mainLaunch N)).shared.winners) ∧
    (∀ i ∈ (run sha b sched (mainLaunch N)).shared.nonceWrites,
      i ∈ (run sha b sched (mainLaunch N)).shared.winners) ∧
    (b.difficulty = 0 → allDone (run sha b sched (mainLaunch N)) →
      ∃ i : Nat, i < N ∧
        (run sha b sched (mainLaunch N)).shared.winners = [i] ∧
        (run sha b sched (mainLaunch N)).shared.hashWrites = [i] ∧
        (run sha b sched (mainLaunch N)).shared.nonceWrites = [i] ∧
        (run sha b sched (mainLaunch N)).shared.globalNonce = (i : Int) ∧
        (run sha b sched (mainLaunch N)).shared.globalHash
          = computeSHA256 sha (blockData b (i : Int))) ∧
    (b.difficulty = 0 → (∀ i : Nat, i < N → 8 ≤ sched.count i) →
      allDone (run sha b sched (mainLaunch N))) := by
  have hinv : Inv sha b (run sha b sched (mainLaunch N)) := inv_reachable sha b _ sched
  obtain ⟨h1, h2, h3, h4, h5⟩ := writes_of_inv hinv
  refine ⟨h1, h2, h3, h4, h5, ?_, fun hd hfair => allDone_of_fair sha b hd N sched hfair⟩
  intro hd hend
  have hlen : 0 < (run sha b sched (mainLaunch N)).workers.length := by
    rw [run_length]
    simp [mainLaunch, initSys]
    omega
  have hf := flag_of_allDone hinv hlen hend
  obtain ⟨i, w, hw, hi, hmat, hwi⟩ := winner_of_flag hinv hf
  have hpc : w.pc = PC.done := hend w (List.getElem?_mem hw)
  simp only [hpc] at hwi
  obtain ⟨_, hgh, hgn, hhw, hnw⟩ := hwi
  obtain ⟨hiN, hs, _⟩ := mainLaunch_params sha b N sched i w hw
  obtain ⟨_, k, _, hnon, hhash, _, hmin⟩ := hmat
  have hk : k = 0 := by
    by_contra hc
    exact hmin 0 (Nat.pos_of_ne_zero hc) (hit_of_difficulty_zero sha b hd _)
  subst hk
  have hnon' : w.nonce = (i : Int) := by rw [hnon, nonceAt, hs]
  refine ⟨i, hiN, hi, hhw, hnw, by rw [hgn, hnon'], ?_⟩
  rw [hgh, hhash, hnon']

set_option maxRecDepth 100000 in
/-- C3 at a concrete run with difficulty 0: two workers race, worker 1 wins
the exchange and worker 0 loses it after finding a match of its own. -/
theorem C3_exactly_one_writer_witness :
    1 ≤ 2 ∧ (toyBlock 0).difficulty = 0 ∧
    allDone (run toySha (toyBlock 0) [0, 1, 0, 1, 0, 1, 1, 0, 1, 1, 1, 1] (mainLaunch 2)) ∧
    (run toySha (toyBlock 0) [0, 1, 0, 1, 0, 1, 1, 0, 1, 1, 1, 1] (mainLaunch 2)).shared.winners
      = [1] ∧
    (∃ i : Nat, i < 2 ∧
        (run toySha (toyBlock 0) [0, 1, 0, 1, 0, 1, 1, 0, 1, 1, 1, 1] (mainLaunch 2)).shared.winners
          = [i] ∧
        (run toySha (toyBlock 0) [0, 1, 0, 1, 0, 1, 1, 0, 1, 1, 1, 1]
          (mainLaunch 2)).shared.hashWrites = [i] ∧
        (run toySha (toyBlock 0) [0, 1, 0, 1, 0, 1, 1, 0, 1, 1, 1, 1]
          (mainLaunch 2)).shared.nonceWrites = [i] ∧
        (run toySha (toyBlock 0) [0, 1, 0, 1, 0, 1, 1, 0, 1, 1, 1, 1]
          (mainLaunch 2)).shared.globalNonce = (i : Int) ∧
        (run toySha (toyBlock 0) [0, 1, 0, 1, 0, 1, 1, 0, 1, 1, 1, 1]
          (mainLaunch 2)).shared.globalHash
          = computeSHA256 toySha (blockData (toyBlock 0) (i : Int))) :=
  ⟨by decide, by decide, by decide, by decide,
    (C3_exactly_one_writer toySha (toyBlock 0) 2 [0, 1, 0, 1, 0, 1, 1, 0, 1, 1, 1, 1]
      (by decide)).2.2.2.2.2.1 (by decide) (by decide)⟩

/-- A worker that has returned does not move and changes nothing. -/
theorem sysStep_done (sha : Str → Digest) (b : Block) (i : Nat) (s : Sys)
    (hend : allDone s) : sysStep sha b i s = s := by
  rcases sysStep_cases sha b i s with e | ⟨w, hab, hw, e⟩
  · exact e
  · rw [e]
    have hpc : w.pc = PC.done := hend w (List.getElem?_mem hw)
    have hst : mineWorkerStep sha b i s.shared w = (s.shared, w) := by
      unfold mineWorkerStep
      rw [hpc]
    simp only [hst]
    have hself : s.workers.set i w = s.workers := by
      apply List.ext_getElem?
      intro j
      rw [List.getElem?_set]
      by_cases hij : i = j
      · subst hij
        simp [hw, lt_length_of_getElem? _ _ _ hw]
      · simp [hij]
    rw [hself]
    cases s
    simp_all

theorem run_done (sha : Str → Digest) (b : Block) (sched : List Nat) (s : Sys)
    (hend : allDone s) : run sha b sched s = s := by
  induction sched with
  | nil => rfl
  | cons i t ih =>
    show run sha b t (sysStep sha b i s) = s
    rw [sysStep_done sha b i s hend, ih]

/-- The eight steps of the single worker at difficulty 0: entry, loop check,
hash, exchange, lock, two assignments, unlock. -/
theorem single_worker_zero_run (sha : Str → Digest) (blockNumber : Int)
    (transactions previousHash : Str) :
    run sha { blockNumber := blockNumber, transactions := transactions,
              previousHash := previousHash, difficulty := 0 }
        [0, 0, 0, 0, 0, 0, 0, 0] (mainLaunch 1)
      = { shared :=
            { solutionFound := true,
              globalHash := computeSHA256 sha
                (decimal blockNumber ++ transactions ++ previousHash ++ ['0']),
              globalNonce := 0, resultMutex := false,
              winners := [0], hashWrites := [0], nonceWrites := [0] },
          workers :=
            [{ start := 0, step := 1, pc := PC.done, targetPrefix := [], nonce := 0,
               hashStr := computeSHA256 sha
                 (decimal blockNumber ++ transactions ++ previousHash ++ ['0']),
               tried := [0] }],
          aborted := false } := by
  have hdec : decimal 0 = ['0'] := by decide
  have hl : mainLaunch 1
      = { shared := Shared.init, workers := [Worker.init 0 1], aborted := false } := by decide
  rw [hl]
  simp [run, sysStep, mineWorkerStep, Worker.init, Shared.init, substr, blockData, hdec]

set_option maxRecDepth 100000 in
/-- C4 (P4 and the difficulty-0 scenario). With difficulty 0 and one worker
(start 0, step 1, flag initially false), for every block number, transactions
and previous hash: after the worker's eight steps, and after any number m of
further scheduler turns, every thread has returned, `solutionFound` is true,
`globalNonce` is 0, `globalHash` is the hash of
decimal(blockNumber) ++ transactions ++ previousHash ++ "0", `main` reports
that pair, and the worker has hashed exactly one candidate, the one with
nonce 0; the run is not over after seven steps. For blockNumber 1, the
transactions of the scenario and a previous hash of 68 zeros the hashed
string is "1Alice pays Bob 0.5 BTC; Charlie pays Dave 1.2 BTC" followed by
the 68 zeros and "0". -/
theorem C4_difficulty_zero_single_worker (sha : Str → Digest) (blockNumber : Int)
    (transactions previousHash : Str) (m : Nat) :
    allDone (run sha (Block.mk blockNumber transactions previousHash 0)
        (List.replicate (8 + m) 0) (mainLaunch 1)) ∧
    (run sha (Block.mk blockNumber transactions previousHash 0)
        (List.replicate (8 + m) 0) (mainLaunch 1)).shared.solutionFound = true ∧
    (run sha (Block.mk blockNumber transactions previousHash 0)
        (List.replicate (8 + m) 0) (mainLaunch 1)).shared.globalNonce = 0 ∧
    (run sha (Block.mk blockNumber transactions previousHash 0)
        (List.replicate (8 + m) 0) (mainLaunch 1)).shared.globalHash
      = computeSHA256 sha (decimal blockNumber ++ transactions ++ previousHash ++ "0".toList) ∧
    mainReport (run sha (Block.mk blockNumber transactions previousHash 0)
        (List.replicate (8 + m) 0) (mainLaunch 1))
      = some (computeSHA256 sha
          (decimal blockNumber ++ transactions ++ previousHash ++ "0".toList), 0) ∧
    (run sha (Block.mk blockNumber transactions previousHash 0)
        (List.replicate (8 + m) 0) (mainLaunch 1)).workers.map (fun w => w.tried) = [[0]] ∧
    ¬ allDone (run sha (Block.mk blockNumber transactions previousHash 0)
        (List.replicate 7 0) (mainLaunch 1)) ∧
    blockData (Block.mk 1 "Alice pays Bob 0.5 BTC; Charlie pays Dave 1.2 BTC".toList
        (List.replicate 68 '0') 0) 0
      = "1Alice pays Bob 0.5 BTC; Charlie pays Dave 1.2 BTC".toList
          ++ List.replicate 68 '0' ++ "0".toList := by
  have h8 := single_worker_zero_run sha blockNumber transactions previousHash
  have hsplit : List.replicate (8 + m) 0 = [0, 0, 0, 0, 0, 0, 0, 0] ++ List.replicate m 0 := by
    rw [List.replicate_add]; rfl
  have hdone : allDone (run sha (Block.mk blockNumber transactions previousHash 0) [0, 0, 0, 0, 0, 0, 0, 0] (mainLaunch 1)) := by
    rw [h8]; simp [allDone]
  rw [hsplit, run_append, run_done _ _ _ _ hdone, h8]
  refine ⟨by simp [allDone], rfl, rfl, rfl, by simp [mainReport], rfl, ?_, by decide⟩
  have hdec : decimal 0 = ['0'] := by decide
  have hl : mainLaunch 1
      = { shared := Shared.init, workers := [Worker.init 0 1], aborted := false } := by decide
  rw [hl]
  simp [run, sysStep, mineWorkerStep, Worker.init, Shared.init, substr, blockData, hdec, allDone]

theorem take_eq_replicate_iff (l : Str) (d : Nat) (c : Char) :
    l.take d = List.replicate d c ↔ d ≤ l.length ∧ ∀ j < d, l[j]? = some c := by
  constructor
  · intro h
    have hlen : d ≤ l.length := by
      have := congrArg List.length h
      simp at this
      exact this
    refine ⟨hlen, fun j hj => ?_⟩
    have h1 : (l.take d)[j]? = (List.replicate d c)[j]? := by rw [h]
    rw [List.getElem?_take_of_lt hj] at h1
    rw [h1]
    simp [List.getElem?_replicate, hj]
  · rintro ⟨hlen, hall⟩
    apply List.ext_getElem?
    intro j
    by_cases hj : j < d
    · rw [List.getElem?_take_of_lt hj, hall j hj]
      simp [List.getElem?_replicate, hj]
    · rw [List.getElem?_eq_none (by simp; omega), List.getElem?_eq_none (by simp; omega)]

theorem hexChar_eq (n : Nat) (hn : n < 16) :
    some (Nat.digitChar n) = "0123456789abcdef".toList[n]? := by
  interval_cases n <;> decide

theorem nibble_lt (hash : Digest) (j n : Nat) (h : nibble hash j = some n) : n < 16 := by
  unfold nibble at h
  split at h
  · rename_i hlt
    have hb := (hash ⟨j / 2, hlt⟩).isLt
    simp only [Option.some.injEq] at h
    subst h
    split <;> omega
  · cases h

theorem render_zero_iff (hash : Digest) (j : Nat) :
    (renderDigest hash)[j]? = some '0' ↔ nibble hash j = some 0 := by
  rw [renderDigest_get?]
  cases hn : nibble hash j with
  | none => simp
  | some n =>
    have hlt := nibble_lt hash j n hn
    simp [digitChar_eq_zero n hlt]

/-- C8 (hex rendering). For every digest of 32 bytes: `computeSHA256` returns
the rendering of the digest of its data; the rendering has exactly 64
characters, each one of 0-9 a-f; characters 2i and 2i+1 are the hexadecimal
digits of the high and of the low nibble of byte i; for every d the first d
characters are all '0' exactly when the first d nibbles of the digest are
zero; and the test of line 48 with d zeros as target succeeds exactly when
d ≤ 64 and the first d nibbles are zero. -/
theorem C8_hex_rendering (hash : Digest) :
    (∀ (sha : Str → Digest) (data : Str), computeSHA256 sha data = renderDigest (sha data)) ∧
    (renderDigest hash).length = 64 ∧
    (∀ c ∈ renderDigest hash, c ∈ "0123456789abcdef".toList) ∧
    (∀ i : Fin 32,
      (renderDigest hash)[2 * i.val]? = "0123456789abcdef".toList[(hash i).val / 16]? ∧
      (renderDigest hash)[2 * i.val + 1]? = "0123456789abcdef".toList[(hash i).val % 16]?) ∧
    (∀ d : Nat, (∀ j < d, (renderDigest hash)[j]? = some '0') ↔
      (∀ j < d, nibble hash j = some 0)) ∧
    (∀ d : Nat, substr (renderDigest hash) 0 d = List.replicate d '0' ↔
      (d ≤ 64 ∧ ∀ j < d, nibble hash j = some 0)) := by
  refine ⟨fun _ _ => rfl, renderDigest_length hash, ?_, ?_, ?_, ?_⟩
  · intro c hc
    obtain ⟨j, hj⟩ := List.mem_iff_getElem?.mp hc
    rw [renderDigest_get?] at hj
    cases hn : nibble hash j with
    | none => simp [hn] at hj
    | some n =>
      simp only [hn, Option.map, Option.some.injEq] at hj
      rw [← hj]
      exact digitChar_hex n (nibble_lt hash j n hn)
  · intro i
    have hb := (hash i).isLt
    have h2 : 2 * i.val / 2 = i.val := by omega
    have h3 : (2 * i.val + 1) / 2 = i.val := by omega
    have h4 : (2 * i.val + 1) % 2 = 1 := by omega
    constructor
    · rw [renderDigest_get?, ← hexChar_eq _ (by omega)]
      simp [nibble, h2, i.isLt]
    · rw [renderDigest_get?, ← hexChar_eq _ (by omega)]
      simp [nibble, h3, h4, i.isLt]
  · intro d
    constructor
    · intro h j hj
      exact (render_zero_iff hash j).mp (h j hj)
    · intro h j hj
      exact (render_zero_iff hash j).mpr (h j hj)
  · intro d
    unfold substr
    rw [List.drop_zero, take_eq_replicate_iff, renderDigest_length]
    constructor
    · rintro ⟨h1, h2⟩
      exact ⟨h1, fun j hj => (render_zero_iff hash j).mp (h2 j hj)⟩
    · rintro ⟨h1, h2⟩
      exact ⟨h1, fun j hj => (render_zero_iff hash j).mpr (h2 j hj)⟩

/-- Once the flag is set, a worker that is at its entry (or at the loop head,
or has left the function) never hashes again, whatever the schedule. -/
theorem no_hash_after_flag (sha : Str → Digest) (b : Block) (sched : List Nat) (s : Sys)
    (i : Nat) (w : Worker) (hf : s.shared.solutionFound = true)
    (hw : s.workers[i]? = some w)
    (hpc : w.pc = PC.entry ∨ w.pc = PC.loopCheck ∨ w.pc = PC.done ∨ w.pc = PC.threw) :
    ∃ w', (run sha b sched s).workers[i]? = some w' ∧ w'.tried = w.tried ∧
      (w'.pc = PC.entry ∨ w'.pc = PC.loopCheck ∨ w'.pc = PC.done ∨ w'.pc = PC.threw) ∧
      (run sha b sched s).shared.solutionFound = true := by
  induction sched generalizing s w with
  | nil => exact ⟨w, hw, rfl, hpc, hf⟩
  | cons j t ih =>
    rw [run_cons]
    rcases sysStep_cases sha b j s with e | ⟨wj, hab, hj, e⟩
    · rw [e]
      exact ih s w hf hw hpc
    · have hf' : (sysStep sha b j s).shared.solutionFound = true := by
        rw [e]
        exact mineWorkerStep_flag_mono sha b j s.shared wj hf
      by_cases hji : j = i
      · subst hji
        have hwj : wj = w := by
          rw [hw] at hj
          exact (Option.some.inj hj).symm
        subst hwj
        have hw' := (sysStep_self sha b j s wj hab hj).2
        have hstep : (mineWorkerStep sha b j s.shared wj).2.tried = wj.tried ∧
            ((mineWorkerStep sha b j s.shared wj).2.pc = PC.entry ∨
             (mineWorkerStep sha b j s.shared wj).2.pc = PC.loopCheck ∨
             (mineWorkerStep sha b j s.shared wj).2.pc = PC.done ∨
             (mineWorkerStep sha b j s.shared wj).2.pc = PC.threw) := by
          unfold mineWorkerStep
          rcases hpc with h | h | h | h
          · simp only [h]
            split <;> simp
          · simp [h, hf]
          · simp [h]
          · simp [h]
        obtain ⟨w', h1, h2, h3, h4⟩ := ih _ _ hf' hw' hstep.2
        exact ⟨w', h1, h2.trans hstep.1, h3, h4⟩
      · have hw' : (sysStep sha b j s).workers[i]? = some w := by
          rw [sysStep_other sha b i j s hji]
          exact hw
        exact ih _ _ hf' hw' hpc

/-- C7 (lost race leaves the result unchanged). For every worker, with any
start and step, and every shared state in which `solutionFound` is already
true: the loop check makes the worker return and changes no shared variable;
the exchange of a worker that found a match makes it return and changes no
shared variable, so `globalHash` and `globalNonce` stay as they were; a worker
that enters the function (difficulty ≥ 0) returns at its loop check without
changing a shared variable or hashing; and in every run from a state with the
flag set, under every schedule, a worker that was at its entry never hashes a
candidate. -/
theorem C7_lost_race_frame (sha : Str → Digest) (b : Block) (id : Nat) (sh : Shared)
    (w : Worker) (hflag : sh.solutionFound = true) :
    (w.pc = PC.loopCheck → mineWorkerStep sha b id sh w = (sh, { w with pc := PC.done })) ∧
    (w.pc = PC.exchange → mineWorkerStep sha b id sh w = (sh, { w with pc := PC.done })) ∧
    (w.pc = PC.entry → 0 ≤ b.difficulty →
      (mineWorkerStep sha b id sh w).1 = sh ∧
      mineWorkerStep sha b id sh (mineWorkerStep sha b id sh w).2
        = (sh, { w with targetPrefix := List.replicate b.difficulty.toNat '0',
                        nonce := w.start, pc := PC.done })) ∧
    (∀ (s : Sys) (i : Nat) (w₀ : Worker) (sched : List Nat),
      s.shared.solutionFound = true → s.workers[i]? = some w₀ → w₀.pc = PC.entry →
      ∃ w', (run sha b sched s).workers[i]? = some w' ∧ w'.tried = w₀.tried ∧
        (w'.pc = PC.entry ∨ w'.pc = PC.loopCheck ∨ w'.pc = PC.done ∨ w'.pc = PC.threw)) := by
  refine ⟨?_, ?_, ?_, ?_⟩
  · intro hpc
    unfold mineWorkerStep
    simp [hpc, hflag]
  · intro hpc
    unfold mineWorkerStep
    simp only [hpc, hflag, if_true]
    congr 1
    cases sh
    simp_all
  · intro hpc hd
    have hd' : ¬ b.difficulty < 0 := by omega
    unfold mineWorkerStep
    simp [hpc, hd', hflag]
  · intro s i w₀ sched hf hw hpc
    obtain ⟨w', h1, h2, h3, _⟩ := no_hash_after_flag sha b sched s i w₀ hf hw (Or.inl hpc)
    exact ⟨w', h1, h2, h3⟩

/-- C7 at a concrete state: worker 1 has stored its result, worker 0 arrives
at the exchange with its own match and returns without touching anything. -/
theorem C7_lost_race_frame_witness :
    wonShared.solutionFound = true ∧ lateWorker.pc = PC.exchange ∧
    mineWorkerStep toySha (toyBlock 0) 0 wonShared lateWorker
      = (wonShared, { lateWorker with pc := PC.done }) :=
  ⟨rfl, rfl, (C7_lost_race_frame toySha (toyBlock 0) 0 wonShared lateWorker rfl).2.1 rfl⟩

/-- C9 (minimality within a stride). For every worker (start, step) of a run
(in particular start ≥ 0, step ≥ 1) and every difficulty (in particular
0 ≤ d ≤ 64): if the worker's exchange returned false and it has stored its
nonce, the stored nonce is start + k*step for some k ≥ 0, its candidate passes
the test of line 48, and no earlier nonce start + j*step, j < k, does; with
start = 0 and step = 1 the stored nonce is the least non-negative integer
whose candidate passes the test. -/
theorem C9_stride_minimality (sha : Str → Digest) (b : Block) (params : List (Int × Int))
    (sched : List Nat) (i : Nat) (start step : Int)
    (hp : params[i]? = some (start, step))
    (hwin : (run sha b sched (initSys params)).shared.winners = [i])
    (hstored : (run sha b sched (initSys params)).shared.nonceWrites = [i]) :
    (∃ k : Nat,
      (run sha b sched (initSys params)).shared.globalNonce = start + (k : Int) * step ∧
      hit sha b (run sha b sched (initSys params)).shared.globalNonce ∧
      ∀ j : Nat, j < k → ¬ hit sha b (start + (j : Int) * step)) ∧
    (start = 0 → step = 1 →
      0 ≤ (run sha b sched (initSys params)).shared.globalNonce ∧
      ∀ m : Int, 0 ≤ m → m < (run sha b sched (initSys params)).shared.globalNonce →
        ¬ hit sha b m) := by
  have hinv : Inv sha b (run sha b sched (initSys params)) := inv_reachable sha b _ sched
  have hlt := hinv.winnerIsWorker i (by simp [hwin])
  have hw : (run sha b sched (initSys params)).workers[i]?
      = some (run sha b sched (initSys params)).workers[i] := by simp [hlt]
  have hpar := reachable_params sha b params sched i _ hw
  rw [hp] at hpar
  simp only [Option.some.injEq, Prod.mk.injEq] at hpar
  obtain ⟨hs, ht⟩ := hpar
  have hwi := (hinv.ofWorker i _ hw).2
  simp only [hwin, if_true, WinnerInv] at hwi
  obtain ⟨⟨_, k, _, hnon, _, hhit, hmin⟩, hcase⟩ := hwi
  have hgn : (run sha b sched (initSys params)).shared.globalNonce
      = (run sha b sched (initSys params)).workers[i].nonce := by
    split at hcase
    · simp [hstored] at hcase
    · simp [hstored] at hcase
    · simp [hstored] at hcase
    · exact hcase.2.2.1
    · exact hcase.2.2.1
    · exact absurd hcase id
  rw [← hgn, ← hs, ← ht, nonceAt_eq] at hnon
  rw [← hgn] at hhit
  have hmin' : ∀ j : Nat, j < k → ¬ hit sha b (start + (j : Int) * step) := by
    intro j hj
    have := hmin j hj
    rwa [← hs, ← ht, nonceAt_eq] at this
  refine ⟨⟨k, hnon, hhit, hmin'⟩, ?_⟩
  intro h0 h1
  subst h0 h1
  rw [hnon]
  constructor
  · simp
  · intro m hm0 hmk
    have hmk' : m.toNat < k := by
      have : m < (k : Int) := by simpa using hmk
      omega
    have := hmin' m.toNat hmk'
    simpa [Int.toNat_of_nonneg hm0] using this

set_option maxRecDepth 100000 in
/-- C9 at a concrete run: one worker with start 0 and step 1 at difficulty 2
stores nonce 2 after the candidates 0 and 1 failed. -/
theorem C9_stride_minimality_witness :
    [((0 : Int), (1 : Int))][0]? = some (0, 1) ∧
    (run toySha (toyBlock 2) (List.replicate 12 0) (initSys [(0, 1)])).shared.winners = [0] ∧
    (run toySha (toyBlock 2) (List.replicate 12 0) (initSys [(0, 1)])).shared.nonceWrites = [0] ∧
    (run toySha (toyBlock 2) (List.replicate 12 0) (initSys [(0, 1)])).shared.globalNonce = 2 ∧
    (0 ≤ (run toySha (toyBlock 2) (List.replicate 12 0) (initSys [(0, 1)])).shared.globalNonce ∧
      ∀ m : Int, 0 ≤ m →
        m < (run toySha (toyBlock 2) (List.replicate 12 0) (initSys [(0, 1)])).shared.globalNonce →
        ¬ hit toySha (toyBlock 2) m) :=
  ⟨by decide, by decide, by decide, by decide,
    (C9_stride_minimality toySha (toyBlock 2) [(0, 1)] (List.replicate 12 0) 0 0 1
      (by decide) (by decide) (by decide)).2 rfl rfl⟩

/-- The test of line 48 on a rendered digest, with d zeros as target. -/
theorem check_iff (hash : Digest) (d : Nat) :
    substr (renderDigest hash) 0 d = List.replicate d '0' ↔
      (d ≤ 64 ∧ ∀ j < d, nibble hash j = some 0) := by
  unfold substr
  rw [List.drop_zero, take_eq_replicate_iff, renderDigest_length]
  constructor
  · rintro ⟨h1, h2⟩
    exact ⟨h1, fun j hj => (render_zero_iff hash j).mp (h2 j hj)⟩
  · rintro ⟨h1, h2⟩
    exact ⟨h1, fun j hj => (render_zero_iff hash j).mpr (h2 j hj)⟩

theorem check_fails_of_large (sha : Str → Digest) (b : Block) (hd : 64 < b.difficulty)
    (data : Str) :
    substr (computeSHA256 sha data) 0 b.difficulty.toNat
      ≠ List.replicate b.difficulty.toNat '0' := by
  intro h
  have := ((check_iff (sha data) b.difficulty.toNat).mp h).1
  omega

theorem not_hit_of_large (sha : Str → Digest) (b : Block) (hd : 64 < b.difficulty)
    (n : Int) : ¬ hit sha b n :=
  check_fails_of_large sha b hd _

/-- When no candidate passes the test of line 48, the flag is never set, the
result is never written and every worker is at its entry or in its loop. -/
theorem searching_forever {sha : Str → Digest} {b : Block} {s : Sys} (h : Inv sha b s)
    (hd : 0 ≤ b.difficulty) (hno : ∀ n, ¬ hit sha b n) :
    s.shared.solutionFound = false ∧ s.shared.winners = [] ∧ s.shared.hashWrites = [] ∧
    s.shared.nonceWrites = [] ∧ s.shared.globalHash = [] ∧ s.shared.globalNonce = 0 ∧
    ∀ w ∈ s.workers, w.pc = PC.entry ∨ w.pc = PC.loopCheck ∨ w.pc = PC.hashing := by
  have hf : s.shared.solutionFound = false := by
    cases hfl : s.shared.solutionFound with
    | false => rfl
    | true =>
      obtain ⟨i, w, _, _, ⟨_, k, _, _, _, hhit, _⟩, _⟩ := winner_of_flag h hfl
      exact absurd hhit (hno _)
  have hw0 : s.shared.winners = [] := by
    by_contra hc
    have := h.flagIff.mpr hc
    rw [hf] at this
    cases this
  obtain ⟨hgh, hgn, _, hhw, hnw⟩ := h.pristine hw0
  refine ⟨hf, hw0, hhw, hnw, hgh, hgn, ?_⟩
  intro w hw
  obtain ⟨i, hi⟩ := List.mem_iff_getElem?.mp hw
  obtain ⟨⟨_, hloc⟩, hrest⟩ := h.ofWorker i w hi
  have hne : ¬ (s.shared.winners = [i]) := by simp [hw0]
  simp only [hne, if_false, LoserInv] at hrest
  obtain ⟨hcrit, hdone⟩ := hrest
  cases hpc : w.pc with
  | entry => simp
  | loopCheck => simp
  | hashing => simp
  | exchange =>
    simp only [hpc] at hloc
    obtain ⟨_, k, _, _, _, hhit, _⟩ := hloc
    exact absurd hhit (hno _)
  | lock => simp [hpc, PC.critical] at hcrit
  | writeHash => simp [hpc, PC.critical] at hcrit
  | writeNonce => simp [hpc, PC.critical] at hcrit
  | unlock => simp [hpc, PC.critical] at hcrit
  | done =>
    have := hdone hpc
    rw [hf] at this
    cases this
  | threw =>
    simp only [hpc] at hloc
    omega

/-- A single worker at a difficulty above 64: after its entry step and n
loop iterations (two steps each) it is back at the loop head with
`nonce = start + n*step`, having hashed n candidates. -/
theorem single_worker_iterations (sha : Str → Digest) (b : Block) (hd : 64 < b.difficulty)
    (start step : Int) (n : Nat) :
    ∃ w : Worker,
      run sha b (List.replicate (1 + 2 * n) 0) (initSys [(start, step)])
        = { shared := Shared.init, workers := [w], aborted := false } ∧
      w.pc = PC.loopCheck ∧ w.start = start ∧ w.step = step ∧
      w.targetPrefix = List.replicate b.difficulty.toNat '0' ∧
      w.nonce = start + (n : Int) * step ∧
      w.tried = (List.range n).map (fun k : Nat => start + (k : Int) * step) := by
  induction n with
  | zero =>
    have hd' : ¬ b.difficulty < 0 := by omega
    refine ⟨{ Worker.init start step with
        targetPrefix := List.replicate b.difficulty.toNat '0', nonce := start,
        pc := PC.loopCheck }, ?_, rfl, rfl, rfl, rfl, by simp [Worker.init], by simp [Worker.init]⟩
    simp [run, initSys, sysStep, mineWorkerStep, Worker.init, hd']
  | succ n ih =>
    obtain ⟨w, hrun, hpc, hs, ht, htp, hn, htr⟩ := ih
    have hsplit : List.replicate (1 + 2 * (n + 1)) 0
        = List.replicate (1 + 2 * n) 0 ++ [0, 0] := by
      have : 1 + 2 * (n + 1) = (1 + 2 * n) + 2 := by ring
      rw [this, List.replicate_add]
      rfl
    have hfail := check_fails_of_large sha b hd (blockData b w.nonce)
    rw [← htp] at hfail
    refine ⟨{ w with hashStr := computeSHA256 sha (blockData b w.nonce),
                     tried := w.tried ++ [w.nonce], nonce := w.nonce + w.step,
                     pc := PC.loopCheck }, ?_, rfl, hs, ht, htp, ?_, ?_⟩
    · rw [hsplit, run_append, hrun]
      simp [run, sysStep, mineWorkerStep, hpc, Shared.init, hfail]
    · simp only [hn, ht]
      push_cast
      ring
    · simp only [htr, hn, List.range_succ, List.map_append, List.map_cons, List.map_nil]

/-- C10 (unreachable difficulty never matches). For every difficulty d > 64:
for every data the left side of the test of line 48 has length 64 and the
target has length d, so the test is false, for every block number,
transactions, previous hash and nonce; in every run, with any workers and
schedule, `solutionFound` stays false, no exchange is made, the result is
never written and every worker is at its entry or in its loop; and for every
n, a single worker is, after its entry step and n iterations, at the loop
head again with `nonce = start + n*step`, n candidates hashed and the shared
variables at their initial values: the program neither terminates nor
reports anything. -/
theorem C10_unreachable_difficulty (sha : Str → Digest) (b : Block)
    (hd : 64 < b.difficulty) :
    (∀ data : Str,
      (substr (computeSHA256 sha data) 0 b.difficulty.toNat).length = 64 ∧
      (List.replicate b.difficulty.toNat '0').length = b.difficulty.toNat ∧
      substr (computeSHA256 sha data) 0 b.difficulty.toNat
        ≠ List.replicate b.difficulty.toNat '0') ∧
    (∀ nonce : Int, ¬ hit sha b nonce) ∧
    (∀ (params : List (Int × Int)) (sched : List Nat),
      (run sha b sched (initSys params)).shared.solutionFound = false ∧
      (run sha b sched (initSys params)).shared.winners = [] ∧
      (run sha b sched (initSys params)).shared.hashWrites = [] ∧
      (run sha b sched (initSys params)).shared.nonceWrites = [] ∧
      (run sha b sched (initSys params)).shared.globalHash = [] ∧
      (run sha b sched (initSys params)).shared.globalNonce = 0 ∧
      ∀ w ∈ (run sha b sched (initSys params)).workers,
        w.pc = PC.entry ∨ w.pc = PC.loopCheck ∨ w.pc = PC.hashing) ∧
    (∀ (start step : Int) (n : Nat), ∃ w : Worker,
      run sha b (List.replicate (1 + 2 * n) 0) (initSys [(start, step)])
        = { shared := Shared.init, workers := [w], aborted := false } ∧
      w.pc = PC.loopCheck ∧ w.nonce = start + (n : Int) * step ∧
      w.tried = (List.range n).map (fun k : Nat => start + (k : Int) * step)) := by
  refine ⟨?_, not_hit_of_large sha b hd, ?_, ?_⟩
  · intro data
    refine ⟨?_, by simp, check_fails_of_large sha b hd data⟩
    have hlen : (computeSHA256 sha data).length = 64 := renderDigest_length _
    simp only [substr, List.drop_zero, List.length_take, hlen]
    omega
  · intro params sched
    exact searching_forever (inv_reachable sha b params sched) (by omega)
      (not_hit_of_large sha b hd)
  · intro start step n
    obtain ⟨w, h1, h2, _, _, _, h3, h4⟩ := single_worker_iterations sha b hd start step n
    exact ⟨w, h1, h2, h3, h4⟩

set_option maxRecDepth 100000 in
/-- C10 at difficulty 65: after the entry step and three iterations the
single worker is at the loop head with nonce 3 and the flag is false. -/
theorem C10_unreachable_difficulty_witness :
    64 < (toyBlock 65).difficulty ∧
    (run toySha (toyBlock 65) (List.replicate 7 0) (initSys [(0, 1)])).shared.solutionFound
      = false ∧
    (run toySha (toyBlock 65) (List.replicate 7 0) (initSys [(0, 1)])).workers.map
      (fun w => (w.pc, w.nonce, w.tried)) = [(PC.loopCheck, 3, [0, 1, 2])] ∧
    (∀ nonce : Int, ¬ hit toySha (toyBlock 65) nonce) :=
  ⟨by decide, by decide, by decide,
    (C10_unreachable_difficulty toySha (toyBlock 65) (by decide)).2.1⟩

/-- With a negative difficulty no worker gets past line 36: each one is at its
entry or has thrown, none has hashed, and the flag is false. -/
theorem negative_difficulty {sha : Str → Digest} {b : Block} {s : Sys} (h : Inv sha b s)
    (hd : b.difficulty < 0) :
    s.shared.solutionFound = false ∧ s.shared.globalHash = [] ∧ s.shared.globalNonce = 0 ∧
    ∀ w ∈ s.workers, w.tried = [] ∧ (w.pc = PC.entry ∨ w.pc = PC.threw) := by
  have hf : s.shared.solutionFound = false := by
    cases hfl : s.shared.solutionFound with
    | false => rfl
    | true =>
      obtain ⟨i, w, _, _, ⟨h0, _⟩, _⟩ := winner_of_flag h hfl
      omega
  have hw0 : s.shared.winners = [] := by
    by_contra hc
    have := h.flagIff.mpr hc
    rw [hf] at this
    cases this
  obtain ⟨hgh, hgn, _, _, _⟩ := h.pristine hw0
  refine ⟨hf, hgh, hgn, ?_⟩
  intro w hw
  obtain ⟨i, hi⟩ := List.mem_iff_getElem?.mp hw
  obtain ⟨⟨_, hloc⟩, hrest⟩ := h.ofWorker i w hi
  have hne : ¬ (s.shared.winners = [i]) := by simp [hw0]
  simp only [hne, if_false, LoserInv] at hrest
  obtain ⟨_, hdone⟩ := hrest
  cases hpc : w.pc with
  | entry => simp only [hpc] at hloc; simp [hloc]
  | threw => simp only [hpc] at hloc; simp [hloc.1]
  | loopCheck => simp only [hpc] at hloc; have := hloc.1; omega
  | hashing => simp only [hpc] at hloc; have := hloc.1; omega
  | exchange => simp only [hpc] at hloc; have := hloc.1; omega
  | lock => simp only [hpc] at hloc; have := hloc.1; omega
  | writeHash => simp only [hpc] at hloc; have := hloc.1; omega
  | writeNonce => simp only [hpc] at hloc; have := hloc.1; omega
  | unlock => simp only [hpc] at hloc; have := hloc.1; omega
  | done =>
    have := hdone hpc
    rw [hf] at this
    cases this

theorem run_aborted (sha : Str → Digest) (b : Block) (sched : List Nat) (s : Sys)
    (hab : s.aborted = true) : run sha b sched s = s := by
  induction sched with
  | nil => rfl
  | cons i t ih => rw [run_cons, sysStep_aborted sha b i s hab, ih]

/-- With a negative difficulty the first turn of any worker of `main` throws
and aborts the process. -/
theorem first_turn_aborts (sha : Str → Digest) (b : Block) (hd : b.difficulty < 0) (W : Nat)
    (i : Nat) (hi : i < W) :
    (sysStep sha b i (mainLaunch W)).aborted = true ∧
    (sysStep sha b i (mainLaunch W)).workers[i]?
      = some { Worker.init (i : Int) (W : Int) with pc := PC.threw } := by
  have hinit : (mainLaunch W).workers[i]? = some (Worker.init (i : Int) (W : Int)) := by
    simp [mainLaunch, initSys, List.getElem?_map, List.getElem?_range hi]
  have hlt : i < (mainLaunch W).workers.length := lt_length_of_getElem? _ _ _ hinit
  rw [sysStep_some sha b i (mainLaunch W) _ rfl hinit]
  simp [mineWorkerStep, Worker.init, hd, hlt]

/-- With a negative difficulty the process is aborted exactly when the
schedule has given a turn to one of the workers. -/
theorem aborted_iff_turn (sha : Str → Digest) (b : Block) (hd : b.difficulty < 0) (W : Nat)
    (sched : List Nat) :
    (run sha b sched (mainLaunch W)).aborted = true ↔ ∃ i ∈ sched, i < W := by
  induction sched with
  | nil => simp [run, mainLaunch, initSys]
  | cons i t ih =>
    rw [run_cons]
    by_cases hi : i < W
    · have h1 := (first_turn_aborts sha b hd W i hi).1
      rw [run_aborted sha b t _ h1]
      simp [h1, hi]
    · have hnone : (mainLaunch W).workers[i]? = none := by
        apply List.getElem?_eq_none
        simp [mainLaunch, initSys]
        omega
      rw [sysStep_none sha b i _ hnone, ih]
      simp [hi]

set_option maxRecDepth 100000 in
/-- C5, counterexample. At difficulty 65 nothing is rejected: after three
turns of the scheduler the single worker has run through its entry and one
loop iteration and has hashed the candidate with nonce 0, and the process is
not aborted. At difficulty -1 nothing is rejected before the launch either:
the worker is started and its first step throws, which aborts the process. -/
theorem C5_counterexample :
    (64 < (toyBlock 65).difficulty ∧
      (run toySha (toyBlock 65) [0, 0, 0] (mainLaunch 1)).workers.map (fun w => (w.pc, w.tried))
        = [(PC.loopCheck, [0])] ∧
      (run toySha (toyBlock 65) [0, 0, 0] (mainLaunch 1)).aborted = false ∧
      ¬ (∀ w ∈ (run toySha (toyBlock 65) [0, 0, 0] (mainLaunch 1)).workers,
          w.pc = PC.entry ∧ w.tried = [])) ∧
    ((toyBlock (-1)).difficulty < 0 ∧
      (run toySha (toyBlock (-1)) [0] (mainLaunch 1)).workers.map (fun w => (w.pc, w.tried))
        = [(PC.threw, [])] ∧
      (run toySha (toyBlock (-1)) [0] (mainLaunch 1)).aborted = true ∧
      ¬ (∀ w ∈ (run toySha (toyBlock (-1)) [0] (mainLaunch 1)).workers, w.pc = PC.entry)) := by
  decide

/-- C5, amended. For a difficulty d < 0 or d > 64 nothing is checked before
the workers are created. In every run `solutionFound` stays false, the result
stays at its initial values and no worker ever returns, so the joins of `main`
never complete and nothing is reported. For d > 64 no exception is thrown and
the process is never aborted, and each worker hashes one candidate for every
two turns it is given after its first. For d < 0 no hash is ever computed:
the first turn of any worker throws at line 36, the process is aborted exactly
when some worker has been given a turn, and nothing moves afterwards. -/
theorem C5_no_validation (sha : Str → Digest) (b : Block) (W : Nat) (sched : List Nat)
    (hd : b.difficulty < 0 ∨ 64 < b.difficulty) :
    (run sha b sched (mainLaunch W)).shared.solutionFound = false ∧
    (run sha b sched (mainLaunch W)).shared.globalHash = [] ∧
    (run sha b sched (mainLaunch W)).shared.globalNonce = 0 ∧
    (∀ w ∈ (run sha b sched (mainLaunch W)).workers, w.pc ≠ PC.done) ∧
    (1 ≤ W → ¬ allDone (run sha b sched (mainLaunch W))) ∧
    (64 < b.difficulty →
      (run sha b sched (mainLaunch W)).aborted = false ∧
      (∀ w ∈ (run sha b sched (mainLaunch W)).workers, w.pc ≠ PC.threw) ∧
      ∀ i : Nat, i < W →
        ∃ w, (run sha b sched (mainLaunch W)).workers[i]? = some w ∧
          w.tried = (List.range ((sched.count i - 1) / 2)).map
            (fun k : Nat => (i : Int) + (k : Int) * (W : Int))) ∧
    (b.difficulty < 0 →
      (∀ w ∈ (run sha b sched (mainLaunch W)).workers,
        w.tried = [] ∧ (w.pc = PC.entry ∨ w.pc = PC.threw)) ∧
      ((run sha b sched (mainLaunch W)).aborted = true ↔ ∃ i ∈ sched, i < W) ∧
      (∀ i : Nat, i < W →
        (run sha b [i] (mainLaunch W)).aborted = true ∧
        (run sha b [i] (mainLaunch W)).workers[i]?
          = some { Worker.init (i : Int) (W : Int) with pc := PC.threw }) ∧
      ((run sha b sched (mainLaunch W)).aborted = true →
        ∀ more : List Nat, run sha b more (run sha b sched (mainLaunch W))
          = run sha b sched (mainLaunch W))) := by
  have hinv : Inv sha b (run sha b sched (mainLaunch W)) := inv_reachable sha b _ sched
  have hcommon : (run sha b sched (mainLaunch W)).shared.solutionFound = false ∧
      (run sha b sched (mainLaunch W)).shared.globalHash = [] ∧
      (run sha b sched (mainLaunch W)).shared.globalNonce = 0 ∧
      (∀ w ∈ (run sha b sched (mainLaunch W)).workers, w.pc ≠ PC.done) := by
    rcases hd with hneg | hbig
    · obtain ⟨h1, h2, h3, h4⟩ := negative_difficulty hinv hneg
      refine ⟨h1, h2, h3, fun w hw hpc => ?_⟩
      rcases (h4 w hw).2 with e | e <;> rw [hpc] at e <;> cases e
    · obtain ⟨h1, _, _, _, h2, h3, h4⟩ :=
        searching_forever hinv (by omega) (not_hit_of_large sha b hbig)
      refine ⟨h1, h2, h3, fun w hw hpc => ?_⟩
      rcases h4 w hw with e | e | e <;> rw [hpc] at e <;> cases e
  refine ⟨hcommon.1, hcommon.2.1, hcommon.2.2.1, hcommon.2.2.2, ?_, ?_, ?_⟩
  · intro hW hall
    have hlen : 0 < (run sha b sched (mainLaunch W)).workers.length := by
      rw [run_length]
      simp [mainLaunch, initSys]
      omega
    have hw : (run sha b sched (mainLaunch W)).workers[0]?
        = some (run sha b sched (mainLaunch W)).workers[0] := by simp [hlen]
    exact hcommon.2.2.2 _ (List.getElem?_mem hw) (hall _ (List.getElem?_mem hw))
  · intro hbig
    refine ⟨not_aborted hinv (by omega), ?_, ?_⟩
    · intro w hw hpc
      obtain ⟨_, _, _, _, _, _, h4⟩ :=
        searching_forever hinv (by omega) (not_hit_of_large sha b hbig)
      rcases h4 w hw with e | e | e <;> rw [hpc] at e <;> cases e
    · intro i hi
      exact tried_of_turns sha b (by omega) W sched hcommon.1 i hi
  · intro hneg
    refine ⟨(negative_difficulty hinv hneg).2.2.2, aborted_iff_turn sha b hneg W sched,
      fun i hi => first_turn_aborts sha b hneg W i hi,
      fun hab more => run_aborted sha b more _ hab⟩

set_option maxRecDepth 100000 in
/-- C5 amended, at difficulty 65 with two workers and at difficulty -1 with
two workers. -/
theorem C5_no_validation_witness :
    (((toyBlock 65).difficulty < 0 ∨ 64 < (toyBlock 65).difficulty) ∧
      (run toySha (toyBlock 65) [0, 1, 1, 0, 1, 0] (mainLaunch 2)).shared.solutionFound
        = false ∧
      (run toySha (toyBlock 65) [0, 1, 1, 0, 1, 0] (mainLaunch 2)).aborted = false ∧
      (run toySha (toyBlock 65) [0, 1, 1, 0, 1, 0] (mainLaunch 2)).workers.map
        (fun w => w.tried) = [[0], [1]]) ∧
    (((toyBlock (-1)).difficulty < 0 ∨ 64 < (toyBlock (-1)).difficulty) ∧
      (run toySha (toyBlock (-1)) [1, 0, 1] (mainLaunch 2)).shared.solutionFound = false ∧
      (run toySha (toyBlock (-1)) [1, 0, 1] (mainLaunch 2)).workers.map
        (fun w => (w.pc, w.tried)) = [(PC.entry, []), (PC.threw, [])] ∧
      ((run toySha (toyBlock (-1)) [1, 0, 1] (mainLaunch 2)).aborted = true ↔
        ∃ i ∈ [1, 0, 1], i < 2)) :=
  ⟨⟨by decide,
      (C5_no_validation toySha (toyBlock 65) 2 [0, 1, 1, 0, 1, 0] (by decide)).1,
      ((C5_no_validation toySha (toyBlock 65) 2 [0, 1, 1, 0, 1, 0]
        (by decide)).2.2.2.2.2.1 (by decide)).1,
      by decide⟩,
    ⟨by decide,
      (C5_no_validation toySha (toyBlock (-1)) 2 [1, 0, 1] (by decide)).1,
      by decide,
      ((C5_no_validation toySha (toyBlock (-1)) 2 [1, 0, 1]
        (by decide)).2.2.2.2.2.2 (by decide)).2.1⟩⟩

set_option maxRecDepth 100000 in
/-- C6, counterexample. Two workers at difficulty 0; worker 1 runs up to and
including its exchange. `solutionFound` is then true while `globalHash` is
still empty and `globalNonce` still 0, although the winner holds a hash of 64
characters and the nonce 1. -/
theorem C6_counterexample :
    (run toySha (toyBlock 0) [1, 1, 1, 1] (mainLaunch 2)).shared.solutionFound = true ∧
    (run toySha (toyBlock 0) [1, 1, 1, 1] (mainLaunch 2)).shared.winners = [1] ∧
    (run toySha (toyBlock 0) [1, 1, 1, 1] (mainLaunch 2)).shared.globalHash = [] ∧
    (run toySha (toyBlock 0) [1, 1, 1, 1] (mainLaunch 2)).shared.globalNonce = 0 ∧
    (run toySha (toyBlock 0) [1, 1, 1, 1] (mainLaunch 2)).workers.map
        (fun w => (w.pc, w.nonce, w.hashStr.length))
      = [(PC.entry, 0, 0), (PC.lock, 1, 64)] := by
  decide

/-- C6, amended. In every reachable state in which `solutionFound` is true
there is exactly one winner (the worker whose exchange returned false); it
holds the hash of the candidate with its nonce; the pair
(globalHash, globalNonce) is either still initial, or the winner's hash with
the initial 0, or the winner's hash and nonce; and once the winner has
returned, in particular once all workers have returned (the states `main`
reads), `globalHash` and `globalNonce` are the winner's hash and nonce. -/
theorem C6_flag_then_result (sha : Str → Digest) (b : Block) (W : Nat) (sched : List Nat)
    (hflag : (run sha b sched (mainLaunch W)).shared.solutionFound = true) :
    ∃ (i : Nat) (w : Worker),
      (run sha b sched (mainLaunch W)).workers[i]? = some w ∧
      (run sha b sched (mainLaunch W)).shared.winners = [i] ∧
      w.hashStr = computeSHA256 sha (blockData b w.nonce) ∧
      (((run sha b sched (mainLaunch W)).shared.globalHash = [] ∧
          (run sha b sched (mainLaunch W)).shared.globalNonce = 0) ∨
        ((run sha b sched (mainLaunch W)).shared.globalHash = w.hashStr ∧
          (run sha b sched (mainLaunch W)).shared.globalNonce = 0) ∨
        ((run sha b sched (mainLaunch W)).shared.globalHash = w.hashStr ∧
          (run sha b sched (mainLaunch W)).shared.globalNonce = w.nonce)) ∧
      ((w.pc = PC.done ∨ allDone (run sha b sched (mainLaunch W))) →
        (run sha b sched (mainLaunch W)).shared.globalHash = w.hashStr ∧
        (run sha b sched (mainLaunch W)).shared.globalNonce = w.nonce) := by
  have hinv : Inv sha b (run sha b sched (mainLaunch W)) := inv_reachable sha b _ sched
  obtain ⟨i, w, hw, hi, hmat, hwi⟩ := winner_of_flag hinv hflag
  obtain ⟨_, k, _, _, hhash, _, _⟩ := hmat
  refine ⟨i, w, hw, hi, hhash, ?_, ?_⟩
  · split at hwi
    · exact Or.inl ⟨hwi.2.1, hwi.2.2.1⟩
    · exact Or.inl ⟨hwi.2.1, hwi.2.2.1⟩
    · exact Or.inr (Or.inl ⟨hwi.2.1, hwi.2.2.1⟩)
    · exact Or.inr (Or.inr ⟨hwi.2.1, hwi.2.2.1⟩)
    · exact Or.inr (Or.inr ⟨hwi.2.1, hwi.2.2.1⟩)
    · exact absurd hwi id
  · intro hdone
    have hpc : w.pc = PC.done := by
      rcases hdone with h | h
      · exact h
      · exact h w (List.getElem?_mem hw)
    simp only [hpc] at hwi
    exact ⟨hwi.2.1, hwi.2.2.1⟩

set_option maxRecDepth 100000 in
/-- C6 amended, at the run of the counterexample continued until worker 1
has returned: the flag is set and the result is worker 1's. -/
theorem C6_flag_then_result_witness :
    (run toySha (toyBlock 0) [1, 1, 1, 1, 1, 1, 1, 1] (mainLaunch 2)).shared.solutionFound = true ∧
    (run toySha (toyBlock 0) [1, 1, 1, 1, 1, 1, 1, 1] (mainLaunch 2)).shared.globalNonce = 1 ∧
    ∃ (i : Nat) (w : Worker),
      (run toySha (toyBlock 0) [1, 1, 1, 1, 1, 1, 1, 1] (mainLaunch 2)).workers[i]? = some w ∧
      (run toySha (toyBlock 0) [1, 1, 1, 1, 1, 1, 1, 1] (mainLaunch 2)).shared.winners = [i] ∧
      w.hashStr = computeSHA256 toySha (blockData (toyBlock 0) w.nonce) :=
  ⟨by decide, by decide,
    match C6_flag_then_result toySha (toyBlock 0) 2 [1, 1, 1, 1, 1, 1, 1, 1] (by decide) with
    | ⟨i, w, h1, h2, h3, _⟩ => ⟨i, w, h1, h2, h3⟩⟩

/-- The thread count of lines 72-73 is never zero. -/
theorem resolveThreads_pos (hardwareConcurrency : Nat) :
    1 ≤ resolveThreads hardwareConcurrency := by
  unfold resolveThreads
  split <;> omega

set_option maxRecDepth 100000 in
/-- The hashes `toySha` gives the first candidates of `toyBlock`. -/
theorem toyBlock_hashes :
    computeSHA256 toySha (blockData (toyBlock 2) 2)
      = "000102030405060708090a0b0c0d0e0f101112131415161718191a1b1c1d1e1f".toList ∧
    (computeSHA256 toySha (blockData (toyBlock 2) 0)).take 4 = "f2f3".toList ∧
    (computeSHA256 toySha (blockData (toyBlock 2) 1)).take 4 = "f9fa".toList := by
  decide

end Miner
